import Mathlib

/-!
Verification of the numerical core of `restore/utils.py`.

The Python source is shallowly embedded in Lean:

* real scalars are modelled as exact rationals `ℚ`; results that IEEE
  arithmetic makes non-finite (`inf`, `-inf`, `nan`) are modelled by the
  four-valued type `NpF`;
* `numpy` library primitives whose values are irrational (`sqrt` via
  `x ** 0.5`, `rfft2`, `irfft2`) are passed in as explicit function
  parameters, so every embedded definition stays executable;
* in-place mutation of `numpy` arrays (the `-=` inside `get_CC`) is
  modelled with an explicit store of buffers and views into them,
  mirroring `numpy`'s view/copy semantics (`np.array(list_of_views)`
  copies its data; basic slicing produces views);
* Python exceptions are modelled with `Except`.
-/

namespace Restore

/-- Python/numpy runtime exceptions that the embedded code can raise. -/
inductive NpErr where
  | valueError
  | zeroDivisionError
  | indexError
deriving DecidableEq

/-- An IEEE-style scalar: a finite rational or one of the non-finite
floats `inf`, `-inf`, `nan`. -/
inductive NpF where
  | fin (q : ℚ)
  | pinf
  | ninf
  | nan
deriving DecidableEq

/-- Division of two finite scalars, with IEEE semantics at a zero
denominator (`a/0` is `inf`, `-inf` or `nan` according to the sign of `a`). -/
def npDivQ (a b : ℚ) : NpF :=
  if b = 0 then (if 0 < a then .pinf else if a < 0 then .ninf else .nan)
  else .fin (a / b)

/-- IEEE addition on `NpF`. -/
def nAdd : NpF → NpF → NpF
  | .nan, _ => .nan
  | _, .nan => .nan
  | .fin a, .fin b => .fin (a + b)
  | .fin _, .pinf => .pinf
  | .pinf, .fin _ => .pinf
  | .fin _, .ninf => .ninf
  | .ninf, .fin _ => .ninf
  | .pinf, .pinf => .pinf
  | .ninf, .ninf => .ninf
  | .pinf, .ninf => .nan
  | .ninf, .pinf => .nan

/-- IEEE negation on `NpF`. -/
def nNeg : NpF → NpF
  | .fin a => .fin (-a)
  | .pinf => .ninf
  | .ninf => .pinf
  | .nan => .nan

/-- IEEE subtraction on `NpF`. -/
def nSub (a b : NpF) : NpF := nAdd a (nNeg b)

/-- IEEE multiplication on `NpF`. -/
def nMul : NpF → NpF → NpF
  | .nan, _ => .nan
  | _, .nan => .nan
  | .fin a, .fin b => .fin (a * b)
  | .fin a, .pinf => if 0 < a then .pinf else if a < 0 then .ninf else .nan
  | .pinf, .fin a => if 0 < a then .pinf else if a < 0 then .ninf else .nan
  | .fin a, .ninf => if 0 < a then .ninf else if a < 0 then .pinf else .nan
  | .ninf, .fin a => if 0 < a then .ninf else if a < 0 then .pinf else .nan
  | .pinf, .pinf => .pinf
  | .ninf, .ninf => .pinf
  | .pinf, .ninf => .ninf
  | .ninf, .pinf => .ninf

/-- IEEE division on `NpF`.  A finite value divided by an infinity is 0
(the sign of the IEEE zero is not tracked). -/
def nDiv : NpF → NpF → NpF
  | .nan, _ => .nan
  | _, .nan => .nan
  | .fin a, .fin b => npDivQ a b
  | .fin _, .pinf => .fin 0
  | .fin _, .ninf => .fin 0
  | .pinf, .fin a => if 0 ≤ a then .pinf else .ninf
  | .ninf, .fin a => if 0 ≤ a then .ninf else .pinf
  | .pinf, .pinf => .nan
  | .pinf, .ninf => .nan
  | .ninf, .pinf => .nan
  | .ninf, .ninf => .nan

/-- `x ** 2` on an IEEE scalar. -/
def nSq (a : NpF) : NpF := nMul a a

/-- A real-valued 2-D array (a micrograph or a frequency field). -/
abbrev RMat := List (List ℚ)

/-- A complex number, as a pair (real part, imaginary part). -/
abbrev Comp := ℚ × ℚ

/-- A complex-valued 2-D array (a half-spectrum). -/
abbrev CMat := List (List Comp)

/-! ## Frequency grids: `numpy.fft.rfftfreq` / `fftfreq` and `get_mic_freqs` -/

/-- `numpy.fft.rfftfreq n d`: the `n/2 + 1` non-negative sample
frequencies `k / (n*d)` of a real FFT of length `n`. -/
def rfftfreq (n : ℕ) (d : ℚ) : List ℚ :=
  (List.range (n / 2 + 1)).map (fun k => (k : ℚ) / ((n : ℚ) * d))

/-- `numpy.fft.fftfreq n d`: the full wrapped frequency axis
`[0, 1, …, (n-1)/2, -(n/2), …, -1] / (n*d)`. -/
def fftfreq (n : ℕ) (d : ℚ) : List ℚ :=
  (List.range n).map (fun k =>
    ((if k ≤ (n - 1) / 2 then (k : ℤ) else (k : ℤ) - (n : ℤ)) : ℚ) / ((n : ℚ) * d))

/-- `get_mic_freqs(mic, apix)` (the `angles=False` branch, the only one the
verified callers use): the array of effective spatial frequency magnitudes
`sqrt(x**2 + y**2)` on the `meshgrid` of `rfftfreq(n_y, apix)` (columns)
and `fftfreq(n_x, apix)` (rows).  `sqrtf` is the square-root primitive. -/
def get_mic_freqs (sqrtf : ℚ → ℚ) (mic : RMat) (apix : ℚ) : RMat :=
  let n_x := mic.length
  let n_y := (mic.headD []).length
  (fftfreq n_x apix).map (fun y => (rfftfreq n_y apix).map (fun x => sqrtf (x ^ 2 + y ^ 2)))

/-! ## `fourier_crop` and the Butterworth filter of `bin_mic` -/

/-- `numpy.searchsorted(a, v)` (side='left') on a sorted 1-D array: the
first index at which `a` meets or exceeds `v`; equivalently the length of
the longest prefix of values strictly below `v`. -/
def searchsorted (a : List ℚ) (v : ℚ) : ℕ :=
  (a.takeWhile (fun x => x < v)).length

/-- `fourier_crop(mic_ft, mic_freqs, cutoff)`: keep the `c_h` leftmost
columns and vertically stack the first `c_v` rows with the last `c_v`
rows, where `c_h`/`c_v` are insertion points of `cutoff` in the
horizontal frequency axis (row 0 of `mic_freqs`) and in the positive half
of the vertical axis (column 0 of its first `n_x/2` rows). -/
def fourier_crop (mic_ft : List (List α)) (mic_freqs : RMat) (cutoff : ℚ) :
    List (List α) :=
  let n_x := mic_ft.length
  let f_h := mic_freqs.headD []
  let f_v := (mic_freqs.take (n_x / 2)).map (fun r => r.headD 0)
  let c_h := searchsorted f_h cutoff
  let c_v := searchsorted f_v cutoff
  ((mic_ft.take c_v) ++ (mic_ft.drop (n_x - c_v))).map (fun r => r.take c_h)

/-- The Butterworth low-pass transfer factor `1 / (1 + (f/cutoff)**(2*bwo))`
applied elementwise by `bin_mic`. -/
def butterworth_factor (f cutoff : ℚ) (bwo : ℕ) : ℚ :=
  1 / (1 + (f / cutoff) ^ (2 * bwo))

/-- `mic_ft *= 1./(1.+ (f/cutoff)**(2*bwo))`: elementwise product of the
spectrum with the Butterworth factor (shapes agree in every call site). -/
def lowpass (mic_ft : CMat) (f : RMat) (cutoff : ℚ) (bwo : ℕ) : CMat :=
  (mic_ft.zip f).map (fun rp =>
    (rp.1.zip rp.2).map (fun zp =>
      (zp.1.1 * butterworth_factor zp.2 cutoff bwo,
       zp.1.2 * butterworth_factor zp.2 cutoff bwo)))

/-- Truth value of a numpy array (`if mic_freqs:`): `False` for an empty
array, the truth of the single element for a one-element array, and a
`ValueError` ("truth value of an array with more than one element is
ambiguous") otherwise. -/
def npTruthy (m : RMat) : Except NpErr Bool :=
  match m.flatten with
  | [] => .ok false
  | [x] => .ok (x ≠ 0)
  | _ => .error .valueError

/-- Truth value of the optional `mic_freqs` argument (`None` is falsy). -/
def npTruthyOpt : Option RMat → Except NpErr Bool
  | none => .ok false
  | some m => npTruthy m

/-- `bin_mic(mic, apix, cutoff, mic_freqs=None, lp=True, bwo=5)`:
bins a micrograph by Fourier cropping, optionally applying a Butterworth
low-pass filter first.  `sqrtf`, `rfft2` and `irfft2` are the library
primitives (`numpy`'s square root and real FFT pair); `irfft2` already
returns a real array, so the trailing `.real` of the source is the
identity. -/
def bin_mic (sqrtf : ℚ → ℚ) (rfft2 : RMat → CMat) (irfft2 : CMat → RMat)
    (mic : RMat) (apix cutoff : ℚ) (mic_freqs : Option RMat := none)
    (lp : Bool := true) (bwo : ℕ := 5) : Except NpErr RMat := do
  let t ← npTruthyOpt mic_freqs
  let f := if t then mic_freqs.getD [] else get_mic_freqs sqrtf mic apix
  let mic_ft := rfft2 mic
  let mic_ft := if lp then lowpass mic_ft f cutoff bwo else mic_ft
  pure (irfft2 (fourier_crop mic_ft f cutoff))

/-! ## `next32` -/

/-- `next32(n)`: increment `n` until it is divisible by 32 (the source's
`while n % 32 != 0: n += 1` loop). -/
def next32 (n : ℕ) : ℕ :=
  if n % 32 = 0 then n else next32 (n + 1)
termination_by (32 - n % 32) % 32
decreasing_by omega

/-- Closed form of the `next32` loop. -/
theorem next32_formula (n : ℕ) : next32 n = 32 * ((n + 31) / 32) := by
  rw [next32]
  split
  · omega
  · rw [next32_formula (n + 1)]
    omega
termination_by (32 - n % 32) % 32
decreasing_by omega

/-! ## Helper lemmas about `searchsorted` -/

theorem searchsorted_le_length (a : List ℚ) (v : ℚ) : searchsorted a v ≤ a.length := by
  unfold searchsorted
  exact (List.takeWhile_prefix _).length_le

theorem searchsorted_lt (v : ℚ) :
    ∀ (a : List ℚ) (j : ℕ), j < searchsorted a v → a.getD j 0 < v := by
  unfold searchsorted
  intro a
  induction a with
  | nil => simp
  | cons x t ih =>
    intro j hj
    rw [List.takeWhile] at hj
    by_cases h : x < v
    · cases j with
      | zero => simpa using h
      | succ k =>
        simp only [List.getD_cons_succ]
        refine ih k ?_
        simp only [h] at hj
        simpa using hj
    · simp [h] at hj

theorem searchsorted_boundary (v : ℚ) :
    ∀ (a : List ℚ), searchsorted a v < a.length → v ≤ a.getD (searchsorted a v) 0 := by
  unfold searchsorted
  intro a
  induction a with
  | nil => simp
  | cons x t ih =>
    intro hlen
    by_cases h : x < v
    · rw [List.takeWhile] at *
      simp only [h] at *
      simpa using ih (by simpa using hlen)
    · rw [List.takeWhile]
      simp only [h]
      simpa using le_of_not_lt h

theorem searchsorted_all (a : List ℚ) (v : ℚ) (h : ∀ x ∈ a, x < v) :
    searchsorted a v = a.length := by
  unfold searchsorted
  rw [List.takeWhile_eq_self_iff.mpr]
  intro x hx
  simpa using h x hx

theorem option_take_comm (c : ℕ) (o : Option (List α)) :
    (o.map (fun r => r.take c)).getD [] = (o.getD []).take c := by
  cases o <;> simp

/-- C4: for every half-spectrum with its frequency field and every cutoff,
`fourier_crop` keeps exactly the `c_h` leftmost columns, where `c_h` is the
first index at which the horizontal frequency axis (row 0) meets or exceeds
the cutoff (so every kept column has horizontal frequency strictly below the
cutoff), and vertically concatenates the first `c_v` rows with the last `c_v`
rows, where `c_v` is the analogous insertion point on the positive half
(first `n_rows/2` entries) of the vertical axis; the output shape is
`(2*c_v, c_h)`, an even row count. -/
theorem fourier_crop_spec {α : Type} (mic_ft : List (List α)) (mic_freqs : RMat)
    (cutoff : ℚ) (n_cols : ℕ)
    (hrect : ∀ r ∈ mic_ft, r.length = n_cols)
    (hfl : mic_freqs.length = mic_ft.length)
    (hfh : (mic_freqs.headD []).length = n_cols)
    (c_h c_v : ℕ)
    (hch : c_h = searchsorted (mic_freqs.headD []) cutoff)
    (hcv : c_v = searchsorted
      ((mic_freqs.take (mic_ft.length / 2)).map (fun r => r.headD 0)) cutoff) :
    (fourier_crop mic_ft mic_freqs cutoff).length = 2 * c_v ∧
    (fourier_crop mic_ft mic_freqs cutoff).length % 2 = 0 ∧
    2 * c_v ≤ mic_ft.length ∧
    (∀ r ∈ fourier_crop mic_ft mic_freqs cutoff, r.length = c_h) ∧
    (∀ i, i < c_v →
      (fourier_crop mic_ft mic_freqs cutoff).getD i [] =
        (mic_ft.getD i []).take c_h) ∧
    (∀ i, i < c_v →
      (fourier_crop mic_ft mic_freqs cutoff).getD (c_v + i) [] =
        (mic_ft.getD (mic_ft.length - c_v + i) []).take c_h) ∧
    (∀ j, j < c_h → (mic_freqs.headD []).getD j 0 < cutoff) ∧
    (c_h < n_cols → cutoff ≤ (mic_freqs.headD []).getD c_h 0) ∧
    (∀ i, i < c_v →
      ((mic_freqs.take (mic_ft.length / 2)).map (fun r => r.headD 0)).getD i 0 < cutoff) ∧
    (c_v < mic_ft.length / 2 → cutoff ≤
      ((mic_freqs.take (mic_ft.length / 2)).map (fun r => r.headD 0)).getD c_v 0) := by
  have hfv_len : ((mic_freqs.take (mic_ft.length / 2)).map (fun r => r.headD 0)).length
      = mic_ft.length / 2 := by
    rw [List.length_map, List.length_take, hfl]
    omega
  have hcv_le : c_v ≤ mic_ft.length / 2 := by
    rw [hcv]
    calc searchsorted _ cutoff ≤ _ := searchsorted_le_length _ _
    _ = mic_ft.length / 2 := hfv_len
  have hch_le : c_h ≤ n_cols := by
    rw [hch]
    calc searchsorted _ cutoff ≤ _ := searchsorted_le_length _ _
    _ = n_cols := hfh
  have hout : fourier_crop mic_ft mic_freqs cutoff =
      ((mic_ft.take c_v) ++ (mic_ft.drop (mic_ft.length - c_v))).map
        (fun r => r.take c_h) := by
    rw [hch, hcv]
    rfl
  have hlen_take : (mic_ft.take c_v).length = c_v := by
    rw [List.length_take]
    omega
  have hlen_drop : (mic_ft.drop (mic_ft.length - c_v)).length = c_v := by
    rw [List.length_drop]
    omega
  have hlen : (fourier_crop mic_ft mic_freqs cutoff).length = 2 * c_v := by
    rw [hout, List.length_map, List.length_append, hlen_take, hlen_drop]
    omega
  refine ⟨hlen, by omega, by omega, ?_, ?_, ?_, ?_, ?_, ?_, ?_⟩
  · intro r hr
    rw [hout] at hr
    obtain ⟨r', hr', rfl⟩ := List.mem_map.mp hr
    have hmem : r' ∈ mic_ft := by
      rcases List.mem_append.mp hr' with h | h
      · exact List.mem_of_mem_take h
      · exact List.mem_of_mem_drop h
    rw [List.length_take, hrect r' hmem]
    omega
  · intro i hi
    rw [hout, List.getD_eq_getElem?_getD, List.getElem?_map,
      List.getElem?_append_left (by rw [hlen_take]; omega),
      List.getElem?_take, if_pos hi, List.getD_eq_getElem?_getD]
    exact option_take_comm c_h _
  · intro i hi
    rw [hout, List.getD_eq_getElem?_getD, List.getElem?_map,
      List.getElem?_append_right (by rw [hlen_take]; omega)]
    rw [hlen_take]
    have h' : c_v + i - c_v = i := by omega
    rw [h', List.getElem?_drop, List.getD_eq_getElem?_getD]
    exact option_take_comm c_h _
  · intro j hj
    exact searchsorted_lt cutoff _ j (hch ▸ hj)
  · intro hlt
    have := searchsorted_boundary cutoff (mic_freqs.headD []) (by rw [hfh]; exact hch ▸ hlt)
    rw [← hch] at this
    exact this
  · intro i hi
    exact searchsorted_lt cutoff _ i (hcv ▸ hi)
  · intro hlt
    have := searchsorted_boundary cutoff
      ((mic_freqs.take (mic_ft.length / 2)).map (fun r => r.headD 0))
      (by rw [hfv_len]; exact hcv ▸ hlt)
    rw [← hcv] at this
    exact this

/-- Witness for C4 at a concrete 4×3 spectrum and 4×3 frequency field with
cutoff 2: the crop keeps 2 columns and 2+2 rows. -/
theorem fourier_crop_spec_witness :
    (fourier_crop ([[1,2,3],[4,5,6],[7,8,9],[10,11,12]] : List (List ℚ))
      [[0, 1, 2],[1, 2, 3],[2, 3, 4],[1, 2, 3]] 2).length = 2 * 2 ∧
    (∀ r ∈ fourier_crop ([[1,2,3],[4,5,6],[7,8,9],[10,11,12]] : List (List ℚ))
      [[0, 1, 2],[1, 2, 3],[2, 3, 4],[1, 2, 3]] 2, r.length = 2) := by
  have h := fourier_crop_spec
    ([[1,2,3],[4,5,6],[7,8,9],[10,11,12]] : List (List ℚ))
    [[0, 1, 2],[1, 2, 3],[2, 3, 4],[1, 2, 3]]
    2 3 (by decide) (by decide) (by decide) 2 2 (by decide) (by decide)
  exact ⟨h.1, h.2.2.2.1⟩

/-- C8: the Butterworth low-pass factor used by `bin_mic` has unit gain at
zero frequency and equals exactly 1/2 at the cutoff frequency, for every
order `bwo ≥ 1` and cutoff > 0. -/
theorem butterworth_gain (cutoff : ℚ) (bwo : ℕ) (hc : 0 < cutoff) (hb : 1 ≤ bwo) :
    butterworth_factor 0 cutoff bwo = 1 ∧
    butterworth_factor cutoff cutoff bwo = 1 / 2 := by
  constructor
  · unfold butterworth_factor
    rw [zero_div, zero_pow (by omega)]
    norm_num
  · unfold butterworth_factor
    rw [div_self (ne_of_gt hc), one_pow]
    norm_num

/-- Witness for C8 at cutoff 1 and the default order 5. -/
theorem butterworth_gain_witness :
    butterworth_factor 0 1 5 = 1 ∧ butterworth_factor 1 1 5 = 1 / 2 :=
  butterworth_gain 1 5 (by norm_num) (by norm_num)

/-- C9: `next32` terminates (it is a total function) and returns the
smallest multiple of 32 that is ≥ `n`; it fixes multiples of 32 and is
monotone. -/
theorem next32_spec :
    (∀ n : ℕ, next32 n % 32 = 0 ∧ n ≤ next32 n ∧
      ∀ m : ℕ, n ≤ m → m % 32 = 0 → next32 n ≤ m) ∧
    (∀ n : ℕ, n % 32 = 0 → next32 n = n) ∧
    (∀ a b : ℕ, a ≤ b → next32 a ≤ next32 b) := by
  refine ⟨fun n => ⟨?_, ?_, fun m hnm hm => ?_⟩, fun n h => ?_, fun a b h => ?_⟩ <;>
    simp only [next32_formula] <;> omega

/-- Witness for C9: concrete instances of the minimality, fixpoint and
monotonicity clauses. -/
theorem next32_spec_witness :
    next32 33 % 32 = 0 ∧ 33 ≤ next32 33 ∧ next32 33 ≤ 64 ∧
    next32 64 = 64 ∧ next32 5 ≤ next32 7 := by
  obtain ⟨h1, h2, h3⟩ := next32_spec
  exact ⟨(h1 33).1, (h1 33).2.1, (h1 33).2.2 64 (by decide) (by decide),
    h2 64 (by decide), h3 5 7 (by decide)⟩

/-- C1 (code bug exhibit): calling `bin_mic` with a precomputed frequency
field for a 2×2 image raises `ValueError` — `if mic_freqs:` evaluates the
ambiguous truth value of a 4-element numpy array — instead of succeeding
with the same result as the call without the precomputed field. -/
theorem bin_mic_precomputed_field_raises (sqrtf : ℚ → ℚ) (rfft2 : RMat → CMat)
    (irfft2 : CMat → RMat) (apix cutoff : ℚ) (lp : Bool) (bwo : ℕ) :
    bin_mic sqrtf rfft2 irfft2 [[1,2],[3,4]] apix cutoff
      (some (get_mic_freqs sqrtf [[1,2],[3,4]] apix)) lp bwo
      = .error .valueError := rfl

/-- C2 (code bug exhibit): `bin_mic` performs no validation of `cutoff`
whatsoever — for every cutoff (including cutoff ≤ 0 and cutoff beyond the
Nyquist frequency) it returns a result rather than failing — and when the
cutoff exceeds every frequency of an even-row field, `fourier_crop`
degenerates to a no-op crop. -/
theorem bin_mic_no_cutoff_validation :
    (∀ (sqrtf : ℚ → ℚ) (rfft2 : RMat → CMat) (irfft2 : CMat → RMat)
      (mic : RMat) (apix cutoff : ℚ) (lp : Bool) (bwo : ℕ),
      ∃ out, bin_mic sqrtf rfft2 irfft2 mic apix cutoff none lp bwo = .ok out) ∧
    (∀ (mic_ft : CMat) (mic_freqs : RMat) (cutoff : ℚ),
      mic_ft.length % 2 = 0 →
      mic_freqs.length = mic_ft.length →
      (∀ r ∈ mic_ft, r.length = (mic_freqs.headD []).length) →
      (∀ q ∈ mic_freqs.headD [], q < cutoff) →
      (∀ r ∈ mic_freqs.take (mic_ft.length / 2), r.headD 0 < cutoff) →
      fourier_crop mic_ft mic_freqs cutoff = mic_ft) := by
  constructor
  · intro sqrtf rfft2 irfft2 mic apix cutoff lp bwo
    exact ⟨_, rfl⟩
  · intro mic_ft mic_freqs cutoff heven hfl hrect hall hvall
    have hch : searchsorted (mic_freqs.headD []) cutoff = (mic_freqs.headD []).length :=
      searchsorted_all _ _ hall
    have hcv : searchsorted
        ((mic_freqs.take (mic_ft.length / 2)).map (fun r => r.headD 0)) cutoff
        = mic_ft.length / 2 := by
      rw [searchsorted_all]
      · rw [List.length_map, List.length_take, hfl]
        omega
      · intro x hx
        obtain ⟨r, hr, rfl⟩ := List.mem_map.mp hx
        exact hvall r hr
    show ((mic_ft.take _) ++ (mic_ft.drop _)).map _ = mic_ft
    rw [hch, hcv]
    have hsplit : mic_ft.length - mic_ft.length / 2 = mic_ft.length / 2 := by omega
    rw [hsplit, List.take_append_drop]
    have : ∀ r ∈ mic_ft, r.take (mic_freqs.headD []).length = r := by
      intro r hr
      exact List.take_of_length_le (le_of_eq (hrect r hr))
    calc mic_ft.map (fun r => r.take (mic_freqs.headD []).length)
        = mic_ft.map id := List.map_congr_left (fun r hr => this r hr)
      _ = mic_ft := List.map_id mic_ft

/-- Witness for C2: a concrete call with a cutoff far beyond Nyquist:
`bin_mic` still returns a value, and the crop keeps everything. -/
theorem bin_mic_no_cutoff_validation_witness :
    (∃ out, bin_mic (fun q => q) (fun _ => []) (fun _ => [])
      [[1,2],[3,4]] 1 1 none true 5 = .ok out) ∧
    fourier_crop ([[((1:ℚ),(0:ℚ)), ((2:ℚ),(0:ℚ))], [((3:ℚ),(0:ℚ)), ((4:ℚ),(0:ℚ))]])
      [[0, 1],[1, 2]] 3
      = [[((1:ℚ),(0:ℚ)), ((2:ℚ),(0:ℚ))], [((3:ℚ),(0:ℚ)), ((4:ℚ),(0:ℚ))]] := by
  constructor
  · exact bin_mic_no_cutoff_validation.1 (fun q => q) (fun _ => []) (fun _ => [])
      [[1,2],[3,4]] 1 1 true 5
  · exact bin_mic_no_cutoff_validation.2 _ _ 3 (by decide) (by decide) (by decide)
      (by decide) (by decide)

/-! ## A store of mutable numpy buffers

`get_CC` mutates its arguments in place (`image1 -= image1.mean()`), and
`get_patches` builds patches by slicing (numpy views) and then copying
them with `np.array(...)`.  To capture these aliasing effects we model a
numpy array as a `View` into a `Store` of buffers.  `np.array` copies each
patch into fresh storage; since the patches occupy pairwise disjoint
regions of the stacked array it produces, representing the copy as one
fresh buffer per patch is observationally equivalent and is the layout
used here. -/

/-- A 2-D buffer of rationals held in the store. -/
abbrev Buf := List (List ℚ)

/-- The store: buffer `b` of store `s` is `s.getD b []`. -/
abbrev Store := List Buf

/-- A numpy array: a rectangular window (offset `r0`,`c0`, size
`rows`×`cols`) into buffer `buf` of the store. -/
structure View where
  buf : ℕ
  r0 : ℕ
  c0 : ℕ
  rows : ℕ
  cols : ℕ
deriving DecidableEq

/-- Buffer `b` of store `s`. -/
def bufAt (s : Store) (b : ℕ) : Buf := s.getD b []

/-- Element `(i, j)` of the array `v` (out-of-range reads default to 0;
they never happen for the views the embedded code builds). -/
def readV (s : Store) (v : View) (i j : ℕ) : ℚ :=
  ((bufAt s v.buf).getD (v.r0 + i) []).getD (v.c0 + j) 0

/-- Sum of `f 0 + … + f (n-1)`. -/
def rowSum (f : ℕ → ℚ) (n : ℕ) : ℚ := ((List.range n).map f).sum

/-- Sum of `f i j` over the grid `i < r`, `j < c`. -/
def gridSum (f : ℕ → ℕ → ℚ) (r c : ℕ) : ℚ := rowSum (fun i => rowSum (f i) c) r

/-- `v.sum()`: the sum of all elements of the array `v`. -/
def sumV (s : Store) (v : View) : ℚ := gridSum (readV s v) v.rows v.cols

/-- `v.mean()`: the arithmetic mean of the array `v`. -/
def meanV (s : Store) (v : View) : ℚ := sumV s v / ((v.rows : ℚ) * (v.cols : ℚ))

/-- `(image1*image2).sum()` over the shape of `image1`. -/
def sumProdV (s : Store) (v1 v2 : View) : ℚ :=
  gridSum (fun i j => readV s v1 i j * readV s v2 i j) v1.rows v1.cols

/-- `(image**2).sum()`. -/
def sumSqV (s : Store) (v : View) : ℚ :=
  gridSum (fun i j => readV s v i j ^ 2) v.rows v.cols

/-- The buffer `m` with `c` subtracted from every element inside the
window `[r0, r0+rows) × [c0, c0+cols)`. -/
def subWindow (m : Buf) (r0 c0 rows cols : ℕ) (c : ℚ) : Buf :=
  (List.range m.length).map (fun i =>
    if r0 ≤ i ∧ i < r0 + rows then
      (List.range ((m.getD i []).length)).map (fun j =>
        if c0 ≤ j ∧ j < c0 + cols then (m.getD i []).getD j 0 - c
        else (m.getD i []).getD j 0)
    else m.getD i [])

/-- In-place `v -= c`: the store after subtracting the scalar `c` from
every element of the array `v`. -/
def writeSub (s : Store) (v : View) (c : ℚ) : Store :=
  s.set v.buf (subWindow (bufAt s v.buf) v.r0 v.c0 v.rows v.cols c)

/-- `get_CC(image1, image2)`: cross-correlation of two images.  Mutates
both inputs in place by mean-centering them, then returns
`sum(image1*image2) / (sqrt(sum(image1**2)) * sqrt(sum(image2**2)))`
over the centered data.  The result is an IEEE scalar (`NpF`), the store
returned alongside it is the post-mutation state. -/
def get_CC (sqrtf : ℚ → ℚ) (s : Store) (image1 image2 : View) : Store × NpF :=
  let s1 := writeSub s image1 (meanV s image1)
  let s2 := writeSub s1 image2 (meanV s1 image2)
  let numerator := sumProdV s2 image1 image2
  let denominator := sqrtf (sumSqV s2 image1) * sqrtf (sumSqV s2 image2)
  (s2, npDivQ numerator denominator)

/-! ## `get_patches` -/

/-- Python slice-index normalisation for `l[a:b]`-style slicing of an axis
of extent `n`: negative indices count from the end, and indices are
clamped to `[0, n]`. -/
def pySliceIdx (n : ℕ) (a : ℤ) : ℕ :=
  if a < 0 then (max 0 ((n : ℤ) + a)).toNat else min a.toNat n

/-- `img[a:a+w, b:b+w]`: a basic numpy slice — a view into the same
buffer, offset and clipped. -/
def sliceV (v : View) (a b : ℤ) (w : ℕ) : View :=
  let r0 := pySliceIdx v.rows a
  let r1 := pySliceIdx v.rows (a + w)
  let c0 := pySliceIdx v.cols b
  let c1 := pySliceIdx v.cols (b + w)
  ⟨v.buf, v.r0 + r0, v.c0 + c0, r1 - r0, c1 - c0⟩

/-- Materialise the contents of the array `v` as a fresh buffer. -/
def matOf (s : Store) (v : View) : Buf :=
  (List.range v.rows).map (fun i => (List.range v.cols).map (fun j => readV s v i j))

/-- The views of the fresh copies made by `stackPatches`: patch `k` is a
whole-buffer view of buffer `base + k`, with the dimensions of the `k`-th
source view. -/
def patchViews (base : ℕ) (vs : List View) : List View :=
  (List.range vs.length).map (fun k =>
    ⟨base + k, 0, 0, (vs.getD k ⟨0, 0, 0, 0, 0⟩).rows, (vs.getD k ⟨0, 0, 0, 0, 0⟩).cols⟩)

/-- `np.array(list_of_views)`: copy the data of each view into fresh
storage (one new buffer per patch; see the module comment) and return
views of the copies. -/
def stackPatches (s : Store) (vs : List View) : Store × List View :=
  (s ++ vs.map (matOf s), patchViews s.length vs)

/-- Python `int(...)`: truncation toward zero. -/
def pyInt (q : ℚ) : ℤ := if q < 0 then -⌊-q⌋ else ⌊q⌋

/-- The value list of `np.arange(0, stop, step)`:
the `max 0 ⌈stop/step⌉` values `0, step, 2*step, …`. -/
def arangeList (stop step : ℤ) : List ℤ :=
  (List.range (Int.toNat ⌈(stop : ℚ) / (step : ℚ)⌉)).map (fun k => (k : ℤ) * step)

/-- `np.arange(0, stop, step)` on integers: `ZeroDivisionError` when the
step is zero, else `arangeList`. -/
def npArange (stop step : ℤ) : Except NpErr (List ℤ) :=
  if step = 0 then .error .zeroDivisionError
  else .ok (arangeList stop step)

/-- `itertools.product(xs, ys)`: row-major Cartesian product. -/
def pyProduct (xs : List α) (ys : List β) : List (α × β) :=
  xs.flatMap (fun a => ys.map (fun b => (a, b)))

/-- `get_patches(img, w=192, overlap=0)`: extract square patches of size
`w` from the image at the grid of offsets `np.arange(0, N-w, int(w*(1-overlap)))`
along each axis, then copy them into a stacked array with `np.array`. -/
def get_patches (s : Store) (img : View) (w : ℕ := 192) (overlap : ℚ := 0) :
    Except NpErr (Store × List View) := do
  let step := pyInt ((w : ℚ) * (1 - overlap))
  let X_cd ← npArange ((img.rows : ℤ) - (w : ℤ)) step
  let Y_cd ← npArange ((img.cols : ℤ) - (w : ℤ)) step
  let slices := (pyProduct X_cd Y_cd).map (fun c => sliceV img c.1 c.2 w)
  pure (stackPatches s slices)

/-! ## Patch-averaged cross correlation and SNR -/

/-- Sum of a list of IEEE scalars. -/
def nSum (l : List NpF) : NpF := l.foldl nAdd (.fin 0)

/-- `np.mean` of a list of IEEE scalars: sum divided by length (`nan` for
the empty list, via 0/0). -/
def npMean (l : List NpF) : NpF := nDiv (nSum l) (.fin (l.length : ℚ))

/-- The loop `[get_CC(patches1[i], patches2[i]) for i in range(n_patches)]`
with `n_patches = len(patches1)`: threads the store through the `get_CC`
calls; raises `IndexError` when `patches2` runs out first. -/
def ccRun (sqrtf : ℚ → ℚ) : Store → List View → List View →
    Except NpErr (Store × List NpF)
  | s, [], _ => .ok (s, [])
  | _, _ :: _, [] => .error .indexError
  | s, p1 :: t1, p2 :: t2 =>
    match get_CC sqrtf s p1 p2 with
    | (s', cc) =>
      match ccRun sqrtf s' t1 t2 with
      | .ok (s'', l) => .ok (s'', cc :: l)
      | .error e => .error e

/-- `get_patch_CC(image1, image2)`: the mean of `get_CC` over matched
patch pairs of the two images. -/
def get_patch_CC (sqrtf : ℚ → ℚ) (s : Store) (image1 image2 : View) :
    Except NpErr (Store × NpF) := do
  let (s, patches1) ← get_patches s image1
  let (s, patches2) ← get_patches s image2
  let (s, ccs) ← ccRun sqrtf s patches1 patches2
  pure (s, npMean ccs)

/-- `get_SNR(image1, image2)`: the Frank & Al-Ali (1975) estimator
`CC / (1 - CC)` of the patch-averaged cross-correlation. -/
def get_SNR (sqrtf : ℚ → ℚ) (s : Store) (image1 image2 : View) :
    Except NpErr (Store × NpF) := do
  let (s, CC) ← get_patch_CC sqrtf s image1 image2
  pure (s, nDiv CC (nSub (.fin 1) CC))

/-- `get_denoised_SNR(raw_even, raw_odd, denoised_even, denoised_odd)`:
SNR of a denoised half sum, together with the SNR of the raw half sum. -/
def get_denoised_SNR (sqrtf : ℚ → ℚ) (s : Store)
    (raw_even raw_odd denoised_even denoised_odd : View) :
    Except NpErr (Store × (NpF × NpF)) := do
  let (s, SNR_raw_half) ← get_SNR sqrtf s raw_even raw_odd
  let (s, SNR_mixed_half1) ← get_SNR sqrtf s denoised_even raw_odd
  let (s, SNR_mixed_half2) ← get_SNR sqrtf s raw_even denoised_odd
  let SNR_mixed_half := nDiv (nAdd SNR_mixed_half1 SNR_mixed_half2) (.fin 2)
  let SNR_denoised_half := nDiv (nSq SNR_mixed_half) SNR_raw_half
  pure (s, (SNR_denoised_half, SNR_raw_half))

/-! ## Frame lemmas for the store -/

/-- Bounds discipline for a view: its window lies inside its buffer. -/
def winOK (s : Store) (v : View) : Prop :=
  v.r0 + v.rows ≤ (bufAt s v.buf).length ∧
  ∀ r ∈ bufAt s v.buf, v.c0 + v.cols ≤ r.length

instance (s : Store) (v : View) : Decidable (winOK s v) := by
  unfold winOK
  infer_instance

theorem length_writeSub (s : Store) (v : View) (c : ℚ) :
    (writeSub s v c).length = s.length := by
  unfold writeSub
  exact List.length_set s _ _

theorem bufAt_set_ne (s : Store) (b b' : ℕ) (m : Buf) (h : b' ≠ b) :
    bufAt (s.set b m) b' = bufAt s b' := by
  unfold bufAt
  rw [List.getD_eq_getElem?_getD, List.getD_eq_getElem?_getD, List.getElem?_set_ne (by omega)]

theorem bufAt_writeSub_ne (s : Store) (v : View) (c : ℚ) (b : ℕ) (h : b ≠ v.buf) :
    bufAt (writeSub s v c) b = bufAt s b :=
  bufAt_set_ne s v.buf b _ h

theorem bufAt_writeSub_self (s : Store) (v : View) (c : ℚ) :
    bufAt (writeSub s v c) v.buf =
      subWindow (bufAt s v.buf) v.r0 v.c0 v.rows v.cols c := by
  unfold writeSub
  by_cases h : v.buf < s.length
  · unfold bufAt
    rw [List.getD_eq_getElem?_getD, List.getElem?_set_eq_of_lt _ (by simpa using h)]
    rfl
  · rw [List.set_eq_of_length_le (by omega)]
    have hnil : bufAt s v.buf = [] := by
      unfold bufAt
      rw [List.getD_eq_getElem?_getD, List.getElem?_eq_none (by omega)]
      rfl
    rw [hnil]
    rfl

theorem getD_range_map (f : ℕ → α) (n k : ℕ) (d : α) (h : k < n) :
    ((List.range n).map f).getD k d = f k := by
  rw [List.getD_eq_getElem?_getD, List.getElem?_map, List.getElem?_range h]
  rfl

theorem getD_mem_of_lt (m : Buf) (i : ℕ) (h : i < m.length) :
    m.getD i [] ∈ m := by
  simp only [List.getD_eq_getElem?_getD, List.getElem?_eq_getElem h, Option.getD_some]
  exact List.getElem_mem h

theorem subWindow_getD_in (m : Buf) (r0 c0 rows cols : ℕ) (c : ℚ) (i j : ℕ)
    (hi : r0 ≤ i ∧ i < r0 + rows) (hrow : i < m.length)
    (hj : c0 ≤ j ∧ j < c0 + cols) (hcol : j < (m.getD i []).length) :
    ((subWindow m r0 c0 rows cols c).getD i []).getD j 0 =
      (m.getD i []).getD j 0 - c := by
  unfold subWindow
  rw [getD_range_map _ _ _ _ hrow, if_pos hi, getD_range_map _ _ _ _ hcol, if_pos hj]

theorem readV_writeSub_in (s : Store) (v : View) (c : ℚ) (i j : ℕ)
    (hw : winOK s v) (hi : i < v.rows) (hj : j < v.cols) :
    readV (writeSub s v c) v i j = readV s v i j - c := by
  obtain ⟨hrows, hcols⟩ := hw
  have hrow : v.r0 + i < (bufAt s v.buf).length := by omega
  have hmem : (bufAt s v.buf).getD (v.r0 + i) [] ∈ bufAt s v.buf :=
    getD_mem_of_lt _ _ hrow
  have hcol : v.c0 + j < ((bufAt s v.buf).getD (v.r0 + i) []).length := by
    have := hcols _ hmem
    omega
  unfold readV
  rw [bufAt_writeSub_self]
  exact subWindow_getD_in _ _ _ _ _ c _ _ (by omega) hrow (by omega) hcol

theorem readV_writeSub_ne (s : Store) (v v' : View) (c : ℚ) (i j : ℕ)
    (h : v'.buf ≠ v.buf) :
    readV (writeSub s v c) v' i j = readV s v' i j := by
  unfold readV
  rw [bufAt_writeSub_ne s v c v'.buf h]

theorem bufAt_append_left (s t : Store) (b : ℕ) (h : b < s.length) :
    bufAt (s ++ t) b = bufAt s b := by
  unfold bufAt
  rw [List.getD_eq_getElem?_getD, List.getD_eq_getElem?_getD, List.getElem?_append_left h]

theorem readV_append (s t : Store) (v : View) (i j : ℕ) (h : v.buf < s.length) :
    readV (s ++ t) v i j = readV s v i j := by
  unfold readV
  rw [bufAt_append_left s t v.buf h]

theorem rowSum_congr (f g : ℕ → ℚ) (n : ℕ) (h : ∀ i, i < n → f i = g i) :
    rowSum f n = rowSum g n := by
  unfold rowSum
  congr 1
  exact List.map_congr_left (fun i hi => h i (List.mem_range.mp hi))

theorem gridSum_congr (f g : ℕ → ℕ → ℚ) (r c : ℕ)
    (h : ∀ i, i < r → ∀ j, j < c → f i j = g i j) :
    gridSum f r c = gridSum g r c := by
  unfold gridSum
  exact rowSum_congr _ _ r (fun i hi => rowSum_congr _ _ c (fun j hj => h i hi j hj))

theorem sumV_congr_read (s s' : Store) (v : View)
    (h : ∀ i, i < v.rows → ∀ j, j < v.cols → readV s' v i j = readV s v i j) :
    sumV s' v = sumV s v :=
  gridSum_congr _ _ _ _ h

theorem meanV_congr_read (s s' : Store) (v : View)
    (h : ∀ i, i < v.rows → ∀ j, j < v.cols → readV s' v i j = readV s v i j) :
    meanV s' v = meanV s v := by
  unfold meanV
  rw [sumV_congr_read s s' v h]

/-- General characterisation of `get_CC` on two non-aliased in-bounds
arrays: the returned scalar is the normalised product of the centered
data, expressed entirely over the pre-call store; the post-call store
holds the centered data in both windows and is unchanged elsewhere. -/
theorem get_CC_general (sqrtf : ℚ → ℚ) (s : Store) (v1 v2 : View)
    (hne : v1.buf ≠ v2.buf) (h1 : winOK s v1) (h2 : winOK s v2)
    (hrows : v1.rows = v2.rows) (hcols : v1.cols = v2.cols) :
    (get_CC sqrtf s v1 v2).2 = npDivQ
      (gridSum (fun i j => (readV s v1 i j - meanV s v1) *
        (readV s v2 i j - meanV s v2)) v1.rows v1.cols)
      (sqrtf (gridSum (fun i j => (readV s v1 i j - meanV s v1) ^ 2) v1.rows v1.cols) *
       sqrtf (gridSum (fun i j => (readV s v2 i j - meanV s v2) ^ 2) v2.rows v2.cols)) ∧
    (∀ i, i < v1.rows → ∀ j, j < v1.cols →
      readV (get_CC sqrtf s v1 v2).1 v1 i j = readV s v1 i j - meanV s v1) ∧
    (∀ i, i < v2.rows → ∀ j, j < v2.cols →
      readV (get_CC sqrtf s v1 v2).1 v2 i j = readV s v2 i j - meanV s v2) ∧
    (∀ b, b ≠ v1.buf → b ≠ v2.buf →
      bufAt (get_CC sqrtf s v1 v2).1 b = bufAt s b) ∧
    (get_CC sqrtf s v1 v2).1.length = s.length := by
  have hmean2 : meanV (writeSub s v1 (meanV s v1)) v2 = meanV s v2 :=
    meanV_congr_read s _ v2 (fun i _ j _ => readV_writeSub_ne s v1 v2 _ i j hne.symm)
  have hr1 : ∀ i, i < v1.rows → ∀ j, j < v1.cols →
      readV (get_CC sqrtf s v1 v2).1 v1 i j = readV s v1 i j - meanV s v1 := by
    intro i hi j hj
    show readV (writeSub _ v2 _) v1 i j = _
    rw [readV_writeSub_ne _ v2 v1 _ i j hne]
    exact readV_writeSub_in s v1 _ i j h1 hi hj
  have hw2 : winOK (writeSub s v1 (meanV s v1)) v2 := by
    obtain ⟨ha, hb⟩ := h2
    constructor
    · rw [bufAt_writeSub_ne s v1 _ v2.buf hne.symm]
      exact ha
    · rw [bufAt_writeSub_ne s v1 _ v2.buf hne.symm]
      exact hb
  have hr2 : ∀ i, i < v2.rows → ∀ j, j < v2.cols →
      readV (get_CC sqrtf s v1 v2).1 v2 i j = readV s v2 i j - meanV s v2 := by
    intro i hi j hj
    show readV (writeSub _ v2 _) v2 i j = _
    rw [readV_writeSub_in _ v2 _ i j hw2 hi hj, hmean2,
      readV_writeSub_ne s v1 v2 _ i j hne.symm]
  refine ⟨?_, hr1, hr2, ?_, ?_⟩
  · have hsnd : (get_CC sqrtf s v1 v2).2 = npDivQ
        (sumProdV (get_CC sqrtf s v1 v2).1 v1 v2)
        (sqrtf (sumSqV (get_CC sqrtf s v1 v2).1 v1) *
         sqrtf (sumSqV (get_CC sqrtf s v1 v2).1 v2)) := rfl
    have hnum : sumProdV (get_CC sqrtf s v1 v2).1 v1 v2 =
        gridSum (fun i j => (readV s v1 i j - meanV s v1) *
          (readV s v2 i j - meanV s v2)) v1.rows v1.cols := by
      unfold sumProdV
      refine gridSum_congr _ _ _ _ (fun i hi j hj => ?_)
      rw [hr1 i hi j hj, hr2 i (hrows ▸ hi) j (hcols ▸ hj)]
    have hsq1 : sumSqV (get_CC sqrtf s v1 v2).1 v1 =
        gridSum (fun i j => (readV s v1 i j - meanV s v1) ^ 2) v1.rows v1.cols := by
      unfold sumSqV
      exact gridSum_congr _ _ _ _ (fun i hi j hj => by rw [hr1 i hi j hj])
    have hsq2 : sumSqV (get_CC sqrtf s v1 v2).1 v2 =
        gridSum (fun i j => (readV s v2 i j - meanV s v2) ^ 2) v2.rows v2.cols := by
      unfold sumSqV
      exact gridSum_congr _ _ _ _ (fun i hi j hj => by rw [hr2 i hi j hj])
    rw [hsnd, hnum, hsq1, hsq2]
  · intro b hb1 hb2
    show bufAt (writeSub (writeSub s v1 _) v2 _) b = bufAt s b
    rw [bufAt_writeSub_ne _ v2 _ b hb2, bufAt_writeSub_ne s v1 _ b hb1]
  · show (writeSub (writeSub s v1 _) v2 _).length = s.length
    rw [length_writeSub, length_writeSub]

theorem rowSum_succ (f : ℕ → ℚ) (n : ℕ) : rowSum f (n + 1) = rowSum f n + f n := by
  unfold rowSum
  rw [List.range_succ, List.map_append, List.sum_append]
  simp

theorem rowSum_nonneg (f : ℕ → ℚ) (n : ℕ) (h : ∀ i, i < n → 0 ≤ f i) :
    0 ≤ rowSum f n := by
  unfold rowSum
  refine List.sum_nonneg (fun x hx => ?_)
  obtain ⟨i, hi, rfl⟩ := List.mem_map.mp hx
  exact h i (List.mem_range.mp hi)

theorem rowSum_eq_zero_of_nonneg (f : ℕ → ℚ) (n : ℕ)
    (hnn : ∀ i, i < n → 0 ≤ f i) (hz : rowSum f n = 0) :
    ∀ i, i < n → f i = 0 := by
  induction n with
  | zero => intro i hi; omega
  | succ m ih =>
    rw [rowSum_succ] at hz
    have h1 : 0 ≤ rowSum f m := rowSum_nonneg f m (fun i hi => hnn i (by omega))
    have h2 : 0 ≤ f m := hnn m (by omega)
    intro i hi
    rcases Nat.lt_succ_iff_lt_or_eq.mp hi with h | h
    · exact ih (fun k hk => hnn k (by omega)) (by linarith) i h
    · subst h
      linarith

theorem gridSum_sq_eq_zero (f : ℕ → ℕ → ℚ) (r c : ℕ)
    (hz : gridSum (fun i j => (f i j) ^ 2) r c = 0) :
    ∀ i, i < r → ∀ j, j < c → f i j = 0 := by
  intro i hi j hj
  have hrow : ∀ i', i' < r → 0 ≤ rowSum (fun j' => (f i' j') ^ 2) c :=
    fun i' _ => rowSum_nonneg _ c (fun j' _ => sq_nonneg _)
  have h1 : rowSum (fun j' => (f i j') ^ 2) c = 0 :=
    rowSum_eq_zero_of_nonneg _ r hrow hz i hi
  have h2 : (f i j) ^ 2 = 0 :=
    rowSum_eq_zero_of_nonneg _ c (fun j' _ => sq_nonneg _) h1 j hj
  exact pow_eq_zero_iff (by omega) |>.mp h2

/-- `b` has the same shape and element values as `a`: then their means
agree. -/
theorem meanV_copy (s : Store) (a b : View)
    (hrows : a.rows = b.rows) (hcols : a.cols = b.cols)
    (hcopy : ∀ i, i < a.rows → ∀ j, j < a.cols → readV s b i j = readV s a i j) :
    meanV s b = meanV s a := by
  unfold meanV sumV
  rw [← hrows, ← hcols, gridSum_congr _ _ _ _ (fun i hi j hj => hcopy i hi j hj)]

/-- C6: `get_CC` mutates both inputs in place by mean-centering them —
after the call each array holds its original data minus that array's
original mean — and the returned scalar is
`sum(a*b) / (sqrt(sum(a**2)) * sqrt(sum(b**2)))` of the centered data. -/
theorem get_CC_centers_in_place (sqrtf : ℚ → ℚ) (s : Store) (a b : View)
    (hne : a.buf ≠ b.buf) (ha : winOK s a) (hb : winOK s b)
    (hrows : a.rows = b.rows) (hcols : a.cols = b.cols) :
    (∀ i, i < a.rows → ∀ j, j < a.cols →
      readV (get_CC sqrtf s a b).1 a i j = readV s a i j - meanV s a) ∧
    (∀ i, i < b.rows → ∀ j, j < b.cols →
      readV (get_CC sqrtf s a b).1 b i j = readV s b i j - meanV s b) ∧
    (get_CC sqrtf s a b).2 = npDivQ
      (gridSum (fun i j => (readV s a i j - meanV s a) *
        (readV s b i j - meanV s b)) a.rows a.cols)
      (sqrtf (gridSum (fun i j => (readV s a i j - meanV s a) ^ 2) a.rows a.cols) *
       sqrtf (gridSum (fun i j => (readV s b i j - meanV s b) ^ 2) b.rows b.cols)) := by
  obtain ⟨hval, hr1, hr2, _, _⟩ := get_CC_general sqrtf s a b hne ha hb hrows hcols
  exact ⟨hr1, hr2, hval⟩

/-- Witness for C6 on two concrete 2×2 arrays in distinct buffers. -/
theorem get_CC_centers_in_place_witness :
    readV (get_CC (fun q => q) [[[1, 2], [3, 5]], [[0, 4], [2, 2]]]
        ⟨0, 0, 0, 2, 2⟩ ⟨1, 0, 0, 2, 2⟩).1 ⟨0, 0, 0, 2, 2⟩ 0 0 =
      readV [[[1, 2], [3, 5]], [[0, 4], [2, 2]]] ⟨0, 0, 0, 2, 2⟩ 0 0 -
        meanV [[[1, 2], [3, 5]], [[0, 4], [2, 2]]] ⟨0, 0, 0, 2, 2⟩ ∧
    readV (get_CC (fun q => q) [[[1, 2], [3, 5]], [[0, 4], [2, 2]]]
        ⟨0, 0, 0, 2, 2⟩ ⟨1, 0, 0, 2, 2⟩).1 ⟨1, 0, 0, 2, 2⟩ 1 1 =
      readV [[[1, 2], [3, 5]], [[0, 4], [2, 2]]] ⟨1, 0, 0, 2, 2⟩ 1 1 -
        meanV [[[1, 2], [3, 5]], [[0, 4], [2, 2]]] ⟨1, 0, 0, 2, 2⟩ := by
  have h := get_CC_centers_in_place (fun q => q)
    [[[1, 2], [3, 5]], [[0, 4], [2, 2]]] ⟨0, 0, 0, 2, 2⟩ ⟨1, 0, 0, 2, 2⟩
    (by decide) (by decide) (by decide) rfl rfl
  exact ⟨h.1 0 (by decide) 0 (by decide), h.2.1 1 (by decide) 1 (by decide)⟩

/-- C7: `get_CC` applied to an array and a copy of it returns exactly 1
(in exact arithmetic, i.e. whenever the square-root primitive is exact on
the one sum it is applied to), for every non-constant array. -/
theorem get_CC_self_copy (sqrtf : ℚ → ℚ) (s : Store) (a b : View)
    (hne : a.buf ≠ b.buf) (ha : winOK s a) (hb : winOK s b)
    (hrows : a.rows = b.rows) (hcols : a.cols = b.cols)
    (hcopy : ∀ i, i < a.rows → ∀ j, j < a.cols → readV s b i j = readV s a i j)
    (hnonconst : ∃ i1 j1 i2 j2, i1 < a.rows ∧ j1 < a.cols ∧ i2 < a.rows ∧
      j2 < a.cols ∧ readV s a i1 j1 ≠ readV s a i2 j2)
    (hs : sqrtf (gridSum (fun i j => (readV s a i j - meanV s a) ^ 2) a.rows a.cols) *
      sqrtf (gridSum (fun i j => (readV s a i j - meanV s a) ^ 2) a.rows a.cols) =
      gridSum (fun i j => (readV s a i j - meanV s a) ^ 2) a.rows a.cols) :
    (get_CC sqrtf s a b).2 = .fin 1 := by
  obtain ⟨hval, _, _, _, _⟩ := get_CC_general sqrtf s a b hne ha hb hrows hcols
  have hmean : meanV s b = meanV s a := meanV_copy s a b hrows hcols hcopy
  have hnum : gridSum (fun i j => (readV s a i j - meanV s a) *
      (readV s b i j - meanV s b)) a.rows a.cols =
      gridSum (fun i j => (readV s a i j - meanV s a) ^ 2) a.rows a.cols := by
    refine gridSum_congr _ _ _ _ (fun i hi j hj => ?_)
    rw [hmean, hcopy i hi j hj, sq]
  have hden2 : gridSum (fun i j => (readV s b i j - meanV s b) ^ 2) b.rows b.cols =
      gridSum (fun i j => (readV s a i j - meanV s a) ^ 2) a.rows a.cols := by
    rw [← hrows, ← hcols]
    refine gridSum_congr _ _ _ _ (fun i hi j hj => ?_)
    rw [hmean, hcopy i hi j hj]
  have hS : gridSum (fun i j => (readV s a i j - meanV s a) ^ 2) a.rows a.cols ≠ 0 := by
    intro h0
    obtain ⟨i1, j1, i2, j2, hi1, hj1, hi2, hj2, hne'⟩ := hnonconst
    have hzero := gridSum_sq_eq_zero _ _ _ h0
    have e1 : readV s a i1 j1 = meanV s a := by
      have := hzero i1 hi1 j1 hj1
      linarith
    have e2 : readV s a i2 j2 = meanV s a := by
      have := hzero i2 hi2 j2 hj2
      linarith
    exact hne' (by rw [e1, e2])
  rw [hval, hnum, hden2, hs]
  unfold npDivQ
  rw [if_neg hS, div_self hS]

/-- Witness for C7: a concrete non-constant 2×2 array and its copy, with a
square-root primitive that is exact on the centered sum of squares. -/
theorem get_CC_self_copy_witness :
    (get_CC (fun q => q) [[[0, 0], [1, 1]], [[0, 0], [1, 1]]]
      ⟨0, 0, 0, 2, 2⟩ ⟨1, 0, 0, 2, 2⟩).2 = .fin 1 := by
  refine get_CC_self_copy (fun q => q) [[[0, 0], [1, 1]], [[0, 0], [1, 1]]]
    ⟨0, 0, 0, 2, 2⟩ ⟨1, 0, 0, 2, 2⟩ (by decide) (by decide) (by decide) rfl rfl
    ?_ ?_ ?_
  · intro i hi j hj
    interval_cases i <;> interval_cases j <;> rfl
  · refine ⟨0, 0, 1, 0, by decide, by decide, by decide, by decide, ?_⟩
    show (0 : ℚ) ≠ 1
    norm_num
  · show (fun q => q) _ * (fun q => q) _ = _
    have : gridSum (fun i j =>
        (readV [[[0, 0], [1, 1]], [[0, 0], [1, 1]]] ⟨0, 0, 0, 2, 2⟩ i j -
          meanV [[[0, 0], [1, 1]], [[0, 0], [1, 1]]] ⟨0, 0, 0, 2, 2⟩) ^ 2) 2 2 = 1 := by
      simp [gridSum, rowSum, readV, bufAt, meanV, sumV, List.range_succ]
      norm_num
    rw [this]
    norm_num

/-! ## C3: degenerate patch extraction -/

theorem except_bind_ok (a : α) (f : α → Except NpErr β) :
    (Except.ok a : Except NpErr α) >>= f = f a := rfl

theorem pyInt_step_default : pyInt (((192 : ℕ) : ℚ) * (1 - 0)) = 192 := by
  unfold pyInt
  rw [if_neg (by norm_num)]
  rw [show (((192 : ℕ) : ℚ) * (1 - 0)) = ((192 : ℤ) : ℚ) by norm_num]
  rw [Int.floor_intCast]

theorem npArange_nonpos (stop step : ℤ) (hstop : stop ≤ 0) (hstep : 0 < step) :
    npArange stop step = .ok [] := by
  unfold npArange
  rw [if_neg (by omega)]
  have hq : ((stop : ℚ) / (step : ℚ)) ≤ 0 :=
    div_nonpos_of_nonpos_of_nonneg (by exact_mod_cast hstop) (by positivity)
  have hceil : ⌈((stop : ℚ) / (step : ℚ))⌉ ≤ 0 := Int.ceil_le.mpr (by exact_mod_cast hq)
  unfold arangeList
  rw [Int.toNat_of_nonpos hceil]
  rfl

theorem npArange_ne_zero (stop step : ℤ) (hstep : step ≠ 0) :
    ∃ l, npArange stop step = .ok l := by
  unfold npArange
  rw [if_neg hstep]
  exact ⟨_, rfl⟩

theorem pyProduct_nil_right (xs : List α) :
    pyProduct xs ([] : List β) = [] := by
  unfold pyProduct
  simp

/-- `get_patches` on an image no bigger than the patch size returns the
empty patch collection and leaves the store unchanged. -/
theorem get_patches_small (s : Store) (v : View)
    (h : v.rows ≤ 192 ∨ v.cols ≤ 192) :
    get_patches s v = .ok (s, []) := by
  show (do
    let step := pyInt (((192 : ℕ) : ℚ) * (1 - 0))
    let X_cd ← npArange ((v.rows : ℤ) - ((192 : ℕ) : ℤ)) step
    let Y_cd ← npArange ((v.cols : ℤ) - ((192 : ℕ) : ℤ)) step
    let slices := (pyProduct X_cd Y_cd).map (fun c : ℤ × ℤ => sliceV v c.1 c.2 192)
    pure (stackPatches s slices)) = .ok (s, [])
  rw [pyInt_step_default]
  show (do
    let X_cd ← npArange ((v.rows : ℤ) - ((192 : ℕ) : ℤ)) 192
    let Y_cd ← npArange ((v.cols : ℤ) - ((192 : ℕ) : ℤ)) 192
    let slices := (pyProduct X_cd Y_cd).map (fun c : ℤ × ℤ => sliceV v c.1 c.2 192)
    pure (stackPatches s slices)) = .ok (s, [])
  have hstack : stackPatches s [] = (s, []) := by
    unfold stackPatches patchViews
    simp
  rcases h with h | h
  · rw [npArange_nonpos _ _ (by omega) (by omega), except_bind_ok]
    obtain ⟨ys, hys⟩ := npArange_ne_zero ((v.cols : ℤ) - ((192 : ℕ) : ℤ)) 192 (by omega)
    rw [hys, except_bind_ok]
    show Except.ok (stackPatches s _) = _
    rw [show pyProduct ([] : List ℤ) ys = ([] : List (ℤ × ℤ)) from rfl]
    rw [show (([] : List (ℤ × ℤ)).map (fun c : ℤ × ℤ => sliceV v c.1 c.2 192)) = [] from rfl]
    rw [hstack]
  · obtain ⟨xs, hxs⟩ := npArange_ne_zero ((v.rows : ℤ) - ((192 : ℕ) : ℤ)) 192 (by omega)
    rw [hxs, except_bind_ok, npArange_nonpos _ _ (by omega) (by omega), except_bind_ok]
    show Except.ok (stackPatches s _) = _
    rw [pyProduct_nil_right xs]
    rw [show (([] : List (ℤ × ℤ)).map (fun c : ℤ × ℤ => sliceV v c.1 c.2 192)) = [] from rfl]
    rw [hstack]

/-- C3 (code bug exhibit): when the patch size (192) is at least either
image dimension, `get_patches` returns the empty collection, and
`get_patch_CC` / `get_SNR` then return `nan` (the mean of an empty list)
instead of raising the `InvalidArgument` the spec requires. -/
theorem small_images_give_nan (sqrtf : ℚ → ℚ) (s : Store) (v1 v2 : View)
    (h1 : v1.rows ≤ 192 ∨ v1.cols ≤ 192) (h2 : v2.rows ≤ 192 ∨ v2.cols ≤ 192) :
    get_patches s v1 = .ok (s, []) ∧
    get_patch_CC sqrtf s v1 v2 = .ok (s, .nan) ∧
    get_SNR sqrtf s v1 v2 = .ok (s, .nan) := by
  have hp1 := get_patches_small s v1 h1
  have hp2 := get_patches_small s v2 h2
  have hpcc : get_patch_CC sqrtf s v1 v2 = .ok (s, .nan) := by
    show (do
      let (s, patches1) ← get_patches s v1
      let (s, patches2) ← get_patches s v2
      let (s, ccs) ← ccRun sqrtf s patches1 patches2
      pure (s, npMean ccs)) = Except.ok (s, NpF.nan)
    rw [hp1, except_bind_ok]
    show (do
      let (s, patches2) ← get_patches s v2
      let (s, ccs) ← ccRun sqrtf s ([] : List View) patches2
      pure (s, npMean ccs)) = Except.ok (s, NpF.nan)
    rw [hp2, except_bind_ok]
    show Except.ok (s, npMean []) = Except.ok (s, NpF.nan)
    rw [show npMean [] = NpF.nan from rfl]
  refine ⟨hp1, hpcc, ?_⟩
  show (do
    let (s, CC) ← get_patch_CC sqrtf s v1 v2
    pure (s, nDiv CC (nSub (.fin 1) CC))) = Except.ok (s, NpF.nan)
  rw [hpcc, except_bind_ok]
  rfl

/-- Witness for C3: two concrete 2×2 images (far smaller than the 192
patch size). -/
theorem small_images_give_nan_witness :
    get_patches [[[1, 2], [3, 4]], [[5, 6], [7, 8]]] ⟨0, 0, 0, 2, 2⟩ =
      .ok ([[[1, 2], [3, 4]], [[5, 6], [7, 8]]], []) ∧
    get_patch_CC (fun q => q) [[[1, 2], [3, 4]], [[5, 6], [7, 8]]]
      ⟨0, 0, 0, 2, 2⟩ ⟨1, 0, 0, 2, 2⟩ =
      .ok ([[[1, 2], [3, 4]], [[5, 6], [7, 8]]], .nan) ∧
    get_SNR (fun q => q) [[[1, 2], [3, 4]], [[5, 6], [7, 8]]]
      ⟨0, 0, 0, 2, 2⟩ ⟨1, 0, 0, 2, 2⟩ =
      .ok ([[[1, 2], [3, 4]], [[5, 6], [7, 8]]], .nan) :=
  small_images_give_nan (fun q => q) [[[1, 2], [3, 4]], [[5, 6], [7, 8]]]
    ⟨0, 0, 0, 2, 2⟩ ⟨1, 0, 0, 2, 2⟩ (by decide) (by decide)

/-! ## Frame properties of `get_patch_CC`: the caller's arrays are never
written (C10), because the patches handed to `get_CC` are copies. -/

/-- The slice views `get_patches` builds for an image (with the default
`w = 192`, `overlap = 0`). -/
def gpSlices (v : View) : List View :=
  (pyProduct (arangeList ((v.rows : ℤ) - ((192 : ℕ) : ℤ)) 192)
             (arangeList ((v.cols : ℤ) - ((192 : ℕ) : ℤ)) 192)).map
    (fun c : ℤ × ℤ => sliceV v c.1 c.2 192)

theorem npArange_eq_ok (stop step : ℤ) (h : step ≠ 0) :
    npArange stop step = .ok (arangeList stop step) := by
  unfold npArange
  rw [if_neg h]

theorem get_patches_eq (s : Store) (v : View) :
    get_patches s v = .ok (stackPatches s (gpSlices v)) := by
  show (do
    let step := pyInt (((192 : ℕ) : ℚ) * (1 - 0))
    let X_cd ← npArange ((v.rows : ℤ) - ((192 : ℕ) : ℤ)) step
    let Y_cd ← npArange ((v.cols : ℤ) - ((192 : ℕ) : ℤ)) step
    let slices := (pyProduct X_cd Y_cd).map (fun c : ℤ × ℤ => sliceV v c.1 c.2 192)
    pure (stackPatches s slices)) = _
  rw [pyInt_step_default]
  show (do
    let X_cd ← npArange ((v.rows : ℤ) - ((192 : ℕ) : ℤ)) 192
    let Y_cd ← npArange ((v.cols : ℤ) - ((192 : ℕ) : ℤ)) 192
    let slices := (pyProduct X_cd Y_cd).map (fun c : ℤ × ℤ => sliceV v c.1 c.2 192)
    pure (stackPatches s slices)) = _
  rw [npArange_eq_ok _ _ (by norm_num), except_bind_ok,
    npArange_eq_ok _ _ (by norm_num), except_bind_ok]
  rfl

theorem get_CC_frame (sqrtf : ℚ → ℚ) (u : Store) (v1 v2 : View) :
    (get_CC sqrtf u v1 v2).1.length = u.length ∧
    ∀ b, b ≠ v1.buf → b ≠ v2.buf →
      bufAt (get_CC sqrtf u v1 v2).1 b = bufAt u b := by
  constructor
  · show (writeSub (writeSub u v1 _) v2 _).length = u.length
    rw [length_writeSub, length_writeSub]
  · intro b h1 h2
    show bufAt (writeSub (writeSub u v1 _) v2 _) b = bufAt u b
    rw [bufAt_writeSub_ne _ v2 _ b h2, bufAt_writeSub_ne u v1 _ b h1]

theorem ccRun_ok_frame (sqrtf : ℚ → ℚ) :
    ∀ (ps1 ps2 : List View) (u u' : Store) (l : List NpF),
    ccRun sqrtf u ps1 ps2 = .ok (u', l) →
    u'.length = u.length ∧
    ∀ b, (∀ v ∈ ps1, v.buf ≠ b) → (∀ v ∈ ps2, v.buf ≠ b) →
      bufAt u' b = bufAt u b := by
  intro ps1
  induction ps1 with
  | nil =>
    intro ps2 u u' l h
    rw [show ccRun sqrtf u ([] : List View) ps2 = .ok (u, []) from rfl] at h
    simp only [Except.ok.injEq, Prod.mk.injEq] at h
    obtain ⟨rfl, rfl⟩ := h
    exact ⟨rfl, fun b _ _ => rfl⟩
  | cons p1 t1 ih =>
    intro ps2 u u' l h
    cases ps2 with
    | nil => simp [ccRun] at h
    | cons p2 t2 =>
      rw [show ccRun sqrtf u (p1 :: t1) (p2 :: t2) =
        (match ccRun sqrtf (get_CC sqrtf u p1 p2).1 t1 t2 with
          | .ok (s'', l') => .ok (s'', (get_CC sqrtf u p1 p2).2 :: l')
          | .error e => .error e) from rfl] at h
      cases hrec : ccRun sqrtf (get_CC sqrtf u p1 p2).1 t1 t2 with
      | error e => rw [hrec] at h; simp at h
      | ok p =>
        obtain ⟨u2, l2⟩ := p
        rw [hrec] at h
        simp only [Except.ok.injEq, Prod.mk.injEq] at h
        obtain ⟨rfl, rfl⟩ := h
        obtain ⟨ihlen, ihframe⟩ := ih t2 _ _ _ hrec
        obtain ⟨gclen, gcframe⟩ := get_CC_frame sqrtf u p1 p2
        refine ⟨by rw [ihlen, gclen], ?_⟩
        intro b hb1 hb2
        rw [ihframe b (fun v hv => hb1 v (by simp [hv])) (fun v hv => hb2 v (by simp [hv]))]
        exact gcframe b (fun hb => (hb1 p1 (by simp) hb.symm))
          (fun hb => (hb2 p2 (by simp) hb.symm))

theorem bufAt_append_right (s t : Store) (k : ℕ) :
    bufAt (s ++ t) (s.length + k) = bufAt t k := by
  unfold bufAt
  rw [List.getD_eq_getElem?_getD, List.getD_eq_getElem?_getD,
    List.getElem?_append_right (by omega)]
  have h : s.length + k - s.length = k := by omega
  rw [h]

theorem patchViews_buf_ge (base : ℕ) (vs : List View) (v : View)
    (h : v ∈ patchViews base vs) : base ≤ v.buf := by
  unfold patchViews at h
  obtain ⟨k, hk, rfl⟩ := List.mem_map.mp h
  show base ≤ base + k
  omega

theorem store_ext_prefix (s u : Store) (hlen : s.length ≤ u.length)
    (h : ∀ b, b < s.length → bufAt u b = bufAt s b) : ∃ t, u = s ++ t := by
  refine ⟨u.drop s.length, ?_⟩
  conv_lhs => rw [← List.take_append_drop s.length u]
  congr 1
  apply List.ext_getElem
  · rw [List.length_take]
    omega
  · intro b hb1 hb2
    have hbu : b < u.length := by omega
    rw [List.getElem_take]
    have hb := h b hb2
    unfold bufAt at hb
    rw [List.getD_eq_getElem?_getD, List.getD_eq_getElem?_getD,
      List.getElem?_eq_getElem hbu, List.getElem?_eq_getElem hb2] at hb
    simpa using hb

/-- `get_patch_CC` only ever appends to the store: every buffer that
existed before the call is untouched. -/
theorem get_patch_CC_frame (sqrtf : ℚ → ℚ) (s : Store) (v1 v2 : View)
    (w : Store) (r : NpF) (h : get_patch_CC sqrtf s v1 v2 = .ok (w, r)) :
    s.length ≤ w.length ∧ ∀ b, b < s.length → bufAt w b = bufAt s b := by
  rw [show get_patch_CC sqrtf s v1 v2 =
      (get_patches s v1 >>= fun p1 =>
        get_patches p1.1 v2 >>= fun p2 =>
          ccRun sqrtf p2.1 p1.2 p2.2 >>= fun pc =>
            pure (pc.1, npMean pc.2)) from rfl] at h
  rw [get_patches_eq s v1, except_bind_ok] at h
  rw [get_patches_eq _ v2, except_bind_ok] at h
  set s1 : Store := (stackPatches s (gpSlices v1)).1 with hs1
  set ps1 : List View := (stackPatches s (gpSlices v1)).2 with hps1
  set s2 : Store := (stackPatches s1 (gpSlices v2)).1 with hs2
  set ps2 : List View := (stackPatches s1 (gpSlices v2)).2 with hps2
  cases hrun : ccRun sqrtf s2 ps1 ps2 with
  | error e => rw [hrun] at h; simp at h
  | ok p =>
    obtain ⟨u', l⟩ := p
    rw [hrun] at h
    simp only [except_bind_ok] at h
    rw [show (pure (u', npMean l) : Except NpErr (Store × NpF)) = .ok (u', npMean l)
      from rfl] at h
    simp only [Except.ok.injEq, Prod.mk.injEq] at h
    obtain ⟨rfl, rfl⟩ := h
    obtain ⟨hrl, hrf⟩ := ccRun_ok_frame sqrtf ps1 ps2 s2 _ _ hrun
    have hlen1 : s1.length = s.length + (gpSlices v1).length := by
      rw [hs1]
      show (s ++ (gpSlices v1).map (matOf s)).length = _
      rw [List.length_append, List.length_map]
    have hlen2 : s2.length = s1.length + (gpSlices v2).length := by
      rw [hs2]
      show (s1 ++ (gpSlices v2).map (matOf s1)).length = _
      rw [List.length_append, List.length_map]
    constructor
    · omega
    · intro b hb
      have h1 : bufAt s1 b = bufAt s b := by
        rw [hs1]
        exact bufAt_append_left s _ b hb
      have h2 : bufAt s2 b = bufAt s1 b := by
        rw [hs2]
        exact bufAt_append_left s1 _ b (by omega)
      have h3 := hrf b
        (fun v hv => by
          have := patchViews_buf_ge s.length (gpSlices v1) v (by exact hv)
          omega)
        (fun v hv => by
          have := patchViews_buf_ge s1.length (gpSlices v2) v (by exact hv)
          omega)
      rw [h3, h2, h1]

theorem ccRun_ok_of_le (sqrtf : ℚ → ℚ) :
    ∀ (ps1 ps2 : List View) (u : Store), ps1.length ≤ ps2.length →
    ∃ u' l, ccRun sqrtf u ps1 ps2 = .ok (u', l) := by
  intro ps1
  induction ps1 with
  | nil => intro ps2 u _; exact ⟨u, [], rfl⟩
  | cons p1 t1 ih =>
    intro ps2 u h
    cases ps2 with
    | nil => simp at h
    | cons p2 t2 =>
      obtain ⟨u', l, hrec⟩ := ih t2 (get_CC sqrtf u p1 p2).1 (by simpa using h)
      refine ⟨u', (get_CC sqrtf u p1 p2).2 :: l, ?_⟩
      rw [show ccRun sqrtf u (p1 :: t1) (p2 :: t2) =
        (match ccRun sqrtf (get_CC sqrtf u p1 p2).1 t1 t2 with
          | .ok (s'', l') => .ok (s'', (get_CC sqrtf u p1 p2).2 :: l')
          | .error e => .error e) from rfl, hrec]

theorem patchViews_length (base : ℕ) (vs : List View) :
    (patchViews base vs).length = vs.length := by
  unfold patchViews
  rw [List.length_map, List.length_range]

theorem gpSlices_length_eq (v1 v2 : View) (hr : v1.rows = v2.rows)
    (hc : v1.cols = v2.cols) : (gpSlices v1).length = (gpSlices v2).length := by
  unfold gpSlices
  rw [List.length_map, List.length_map, hr, hc]

/-- `get_patch_CC` always succeeds on equal-shape images (patch counts
match, so no `IndexError`). -/
theorem get_patch_CC_ok (sqrtf : ℚ → ℚ) (s : Store) (v1 v2 : View)
    (hr : v1.rows = v2.rows) (hc : v1.cols = v2.cols) :
    ∃ w r, get_patch_CC sqrtf s v1 v2 = .ok (w, r) := by
  rw [show get_patch_CC sqrtf s v1 v2 =
      (get_patches s v1 >>= fun p1 =>
        get_patches p1.1 v2 >>= fun p2 =>
          ccRun sqrtf p2.1 p1.2 p2.2 >>= fun pc =>
            pure (pc.1, npMean pc.2)) from rfl]
  rw [get_patches_eq s v1, except_bind_ok, get_patches_eq _ v2, except_bind_ok]
  set s2 : Store := (stackPatches (stackPatches s (gpSlices v1)).1 (gpSlices v2)).1
  have hlens : ((stackPatches s (gpSlices v1)).2).length ≤
      ((stackPatches (stackPatches s (gpSlices v1)).1 (gpSlices v2)).2).length := by
    show (patchViews s.length (gpSlices v1)).length ≤
      (patchViews (stackPatches s (gpSlices v1)).1.length (gpSlices v2)).length
    rw [patchViews_length, patchViews_length, gpSlices_length_eq v1 v2 hr hc]
  obtain ⟨u', l, hrun⟩ := ccRun_ok_of_le sqrtf _ _ s2 hlens
  rw [hrun, except_bind_ok]
  exact ⟨u', npMean l, rfl⟩

/-- C10: on equal-shape images larger than the patch size,
`get_patch_CC` — and hence `get_SNR` — leaves both input images
unchanged: the patches handed to the mutating `get_CC` are copies
(`np.array` of the slice views), so the call only appends fresh buffers
to the store and every read of either image afterwards returns its
original value. -/
theorem get_patch_CC_leaves_images (sqrtf : ℚ → ℚ) (s : Store) (v1 v2 : View)
    (h1 : v1.buf < s.length) (h2 : v2.buf < s.length)
    (hr : v1.rows = v2.rows) (hc : v1.cols = v2.cols)
    (hbig : 192 < v1.rows ∧ 192 < v1.cols) :
    ∃ t r, get_patch_CC sqrtf s v1 v2 = .ok (s ++ t, r) ∧
      get_SNR sqrtf s v1 v2 = .ok (s ++ t, nDiv r (nSub (.fin 1) r)) ∧
      (∀ i j, readV (s ++ t) v1 i j = readV s v1 i j) ∧
      (∀ i j, readV (s ++ t) v2 i j = readV s v2 i j) := by
  obtain ⟨w, r, hok⟩ := get_patch_CC_ok sqrtf s v1 v2 hr hc
  obtain ⟨hlen, hframe⟩ := get_patch_CC_frame sqrtf s v1 v2 w r hok
  obtain ⟨t, rfl⟩ := store_ext_prefix s w hlen hframe
  refine ⟨t, r, hok, ?_, fun i j => readV_append s t v1 i j h1,
    fun i j => readV_append s t v2 i j h2⟩
  show (get_patch_CC sqrtf s v1 v2 >>= fun p =>
    pure (p.1, nDiv p.2 (nSub (.fin 1) p.2))) = _
  rw [hok, except_bind_ok]
  rfl

/-- Witness for C10: two 193×193 zero images in distinct buffers. -/
theorem get_patch_CC_leaves_images_witness :
    ∃ t r, get_patch_CC (fun q => q)
        [List.replicate 193 (List.replicate 193 (0 : ℚ)),
         List.replicate 193 (List.replicate 193 (0 : ℚ))]
        ⟨0, 0, 0, 193, 193⟩ ⟨1, 0, 0, 193, 193⟩ =
      .ok ([List.replicate 193 (List.replicate 193 (0 : ℚ)),
            List.replicate 193 (List.replicate 193 (0 : ℚ))] ++ t, r) ∧
      get_SNR (fun q => q)
        [List.replicate 193 (List.replicate 193 (0 : ℚ)),
         List.replicate 193 (List.replicate 193 (0 : ℚ))]
        ⟨0, 0, 0, 193, 193⟩ ⟨1, 0, 0, 193, 193⟩ =
      .ok ([List.replicate 193 (List.replicate 193 (0 : ℚ)),
            List.replicate 193 (List.replicate 193 (0 : ℚ))] ++ t,
           nDiv r (nSub (.fin 1) r)) ∧
      (∀ i j, readV ([List.replicate 193 (List.replicate 193 (0 : ℚ)),
          List.replicate 193 (List.replicate 193 (0 : ℚ))] ++ t)
          ⟨0, 0, 0, 193, 193⟩ i j =
        readV [List.replicate 193 (List.replicate 193 (0 : ℚ)),
          List.replicate 193 (List.replicate 193 (0 : ℚ))] ⟨0, 0, 0, 193, 193⟩ i j) ∧
      (∀ i j, readV ([List.replicate 193 (List.replicate 193 (0 : ℚ)),
          List.replicate 193 (List.replicate 193 (0 : ℚ))] ++ t)
          ⟨1, 0, 0, 193, 193⟩ i j =
        readV [List.replicate 193 (List.replicate 193 (0 : ℚ)),
          List.replicate 193 (List.replicate 193 (0 : ℚ))] ⟨1, 0, 0, 193, 193⟩ i j) :=
  get_patch_CC_leaves_images (fun q => q) _ ⟨0, 0, 0, 193, 193⟩ ⟨1, 0, 0, 193, 193⟩
    (by simp) (by simp) rfl rfl (by norm_num)

/-! ## Value determinacy of `get_patch_CC` (towards C5)

The scalar returned by `get_patch_CC` depends only on the contents of the
two image buffers, not on the rest of the store: the patches are copies
and all mutation happens in fresh buffers.  This is what lets
`get_denoised_SNR` be described by the pure combination formula of C5
even though its three `get_SNR` calls thread an evolving store. -/

theorem readV_congr_buf (s s' : Store) (v : View)
    (h : bufAt s' v.buf = bufAt s v.buf) (i j : ℕ) :
    readV s' v i j = readV s v i j := by
  unfold readV
  rw [h]

theorem matOf_length (s : Store) (v : View) : (matOf s v).length = v.rows := by
  unfold matOf
  rw [List.length_map, List.length_range]

theorem matOf_row_length (s : Store) (v : View) (r : List ℚ)
    (h : r ∈ matOf s v) : r.length = v.cols := by
  unfold matOf at h
  obtain ⟨i, _, rfl⟩ := List.mem_map.mp h
  rw [List.length_map, List.length_range]

theorem matOf_read (s : Store) (v : View) (i j : ℕ) (hi : i < v.rows)
    (hj : j < v.cols) : ((matOf s v).getD i []).getD j 0 = readV s v i j := by
  unfold matOf
  rw [getD_range_map _ _ _ _ hi]
  rw [List.getD_eq_getElem?_getD, List.getElem?_map, List.getElem?_range hj]
  rfl

theorem getD_map_of_lt {α β : Type} (f : α → β) (vs : List α) (k : ℕ) (d : α)
    (db : β) (h : k < vs.length) : (vs.map f).getD k db = f (vs.getD k d) := by
  rw [List.getD_eq_getElem?_getD, List.getElem?_map, List.getElem?_eq_getElem h,
    List.getD_eq_getElem?_getD, List.getElem?_eq_getElem h]
  rfl

theorem getD_patchViews (base : ℕ) (vs : List View) (k : ℕ) (d : View)
    (h : k < vs.length) :
    (patchViews base vs).getD k d =
      ⟨base + k, 0, 0, (vs.getD k ⟨0, 0, 0, 0, 0⟩).rows,
        (vs.getD k ⟨0, 0, 0, 0, 0⟩).cols⟩ := by
  unfold patchViews
  rw [List.getD_eq_getElem?_getD, List.getElem?_map, List.getElem?_range h]
  rfl

/-- The k-th element relation used to compare two runs of the patch loop:
`v` (in store `u`) and `v'` (in store `u'`) are whole-buffer views of the
same dimensions whose buffers agree elementwise inside the window. -/
def viewRel (u u' : Store) (v v' : View) : Prop :=
  v.r0 = 0 ∧ v.c0 = 0 ∧ v'.r0 = 0 ∧ v'.c0 = 0 ∧
  v'.rows = v.rows ∧ v'.cols = v.cols ∧
  (bufAt u v.buf).length = v.rows ∧ (∀ r ∈ bufAt u v.buf, r.length = v.cols) ∧
  (bufAt u' v'.buf).length = v.rows ∧ (∀ r ∈ bufAt u' v'.buf, r.length = v.cols) ∧
  (∀ i, i < v.rows → ∀ j, j < v.cols → readV u' v' i j = readV u v i j)

theorem viewRel_winOK_left (u u' : Store) (v v' : View) (h : viewRel u u' v v') :
    winOK u v := by
  obtain ⟨h1, h2, _, _, _, _, h7, h8, _, _, _⟩ := h
  exact ⟨by omega, fun r hr => by have := h8 r hr; omega⟩

theorem viewRel_winOK_right (u u' : Store) (v v' : View) (h : viewRel u u' v v') :
    winOK u' v' := by
  obtain ⟨_, _, h3, h4, h5, h6, _, _, h9, h10, _⟩ := h
  exact ⟨by omega, fun r hr => by have := h10 r hr; omega⟩

theorem viewRel_mean (u u' : Store) (v v' : View) (h : viewRel u u' v v') :
    meanV u' v' = meanV u v := by
  obtain ⟨_, _, _, _, h5, h6, _, _, _, _, h11⟩ := h
  unfold meanV sumV
  rw [h5, h6]
  rw [gridSum_congr _ _ _ _ (fun i hi j hj => h11 i hi j hj)]

/-- The value `get_CC` returns is determined by the window contents and
dimensions of its two arguments. -/
theorem get_CC_det (sqrtf : ℚ → ℚ) (u u' : Store) (p1 p2 p1' p2' : View)
    (hA : viewRel u u' p1 p1') (hB : viewRel u u' p2 p2')
    (hpr : p1.rows = p2.rows) (hpc : p1.cols = p2.cols)
    (hne : p1.buf ≠ p2.buf) (hne' : p1'.buf ≠ p2'.buf) :
    (get_CC sqrtf u' p1' p2').2 = (get_CC sqrtf u p1 p2).2 := by
  have hpr' : p1'.rows = p2'.rows := by
    rw [hA.2.2.2.2.1, hB.2.2.2.2.1, hpr]
  have hpc' : p1'.cols = p2'.cols := by
    rw [hA.2.2.2.2.2.1, hB.2.2.2.2.2.1, hpc]
  obtain ⟨hval, _, _, _, _⟩ := get_CC_general sqrtf u p1 p2 hne
    (viewRel_winOK_left u u' p1 p1' hA) (viewRel_winOK_left u u' p2 p2' hB) hpr hpc
  obtain ⟨hval', _, _, _, _⟩ := get_CC_general sqrtf u' p1' p2' hne'
    (viewRel_winOK_right u u' p1 p1' hA) (viewRel_winOK_right u u' p2 p2' hB) hpr' hpc'
  rw [hval, hval']
  have hm1 := viewRel_mean u u' p1 p1' hA
  have hm2 := viewRel_mean u u' p2 p2' hB
  have hread1 := hA.2.2.2.2.2.2.2.2.2.2
  have hread2 := hB.2.2.2.2.2.2.2.2.2.2
  have hd1r := hA.2.2.2.2.1
  have hd1c := hA.2.2.2.2.2.1
  have hd2r := hB.2.2.2.2.1
  have hd2c := hB.2.2.2.2.2.1
  have hnum : gridSum (fun i j => (readV u' p1' i j - meanV u' p1') *
      (readV u' p2' i j - meanV u' p2')) p1'.rows p1'.cols =
      gridSum (fun i j => (readV u p1 i j - meanV u p1) *
      (readV u p2 i j - meanV u p2)) p1.rows p1.cols := by
    rw [hd1r, hd1c]
    refine gridSum_congr _ _ _ _ (fun i hi j hj => ?_)
    rw [hm1, hm2, hread1 i hi j hj, hread2 i (by omega) j (by omega)]
  have hsq1 : gridSum (fun i j => (readV u' p1' i j - meanV u' p1') ^ 2)
      p1'.rows p1'.cols =
      gridSum (fun i j => (readV u p1 i j - meanV u p1) ^ 2) p1.rows p1.cols := by
    rw [hd1r, hd1c]
    refine gridSum_congr _ _ _ _ (fun i hi j hj => ?_)
    rw [hm1, hread1 i hi j hj]
  have hsq2 : gridSum (fun i j => (readV u' p2' i j - meanV u' p2') ^ 2)
      p2'.rows p2'.cols =
      gridSum (fun i j => (readV u p2 i j - meanV u p2) ^ 2) p2.rows p2.cols := by
    rw [hd2r, hd2c]
    refine gridSum_congr _ _ _ _ (fun i hi j hj => ?_)
    rw [hm2, hread2 i hi j hj]
  rw [hnum, hsq1, hsq2]

/-- `viewRel` survives a pair of `get_CC` calls that write to other
buffers. -/
theorem viewRel_transport (u u' : Store) (v v' q1 q2 q1' q2' : View)
    (sqrtf : ℚ → ℚ) (h : viewRel u u' v v')
    (h1 : v.buf ≠ q1.buf) (h2 : v.buf ≠ q2.buf)
    (h1' : v'.buf ≠ q1'.buf) (h2' : v'.buf ≠ q2'.buf) :
    viewRel (get_CC sqrtf u q1 q2).1 (get_CC sqrtf u' q1' q2').1 v v' := by
  have hb : bufAt (get_CC sqrtf u q1 q2).1 v.buf = bufAt u v.buf :=
    (get_CC_frame sqrtf u q1 q2).2 v.buf h1 h2
  have hb' : bufAt (get_CC sqrtf u' q1' q2').1 v'.buf = bufAt u' v'.buf :=
    (get_CC_frame sqrtf u' q1' q2').2 v'.buf h1' h2'
  obtain ⟨a1, a2, a3, a4, a5, a6, a7, a8, a9, a10, a11⟩ := h
  refine ⟨a1, a2, a3, a4, a5, a6, by rw [hb]; exact a7, ?_, by rw [hb']; exact a9, ?_, ?_⟩
  · rw [hb]
    exact a8
  · rw [hb']
    exact a10
  · intro i hi j hj
    calc readV (get_CC sqrtf u' q1' q2').1 v' i j
        = readV u' v' i j := readV_congr_buf u' _ v' hb' i j
      _ = readV u v i j := a11 i hi j hj
      _ = readV (get_CC sqrtf u q1 q2).1 v i j :=
          (readV_congr_buf u _ v hb i j).symm

theorem forall₂_of_getD (R : View → View → Prop) :
    ∀ (l1 l2 : List View), l1.length = l2.length →
    (∀ k, k < l1.length →
      R (l1.getD k ⟨0, 0, 0, 0, 0⟩) (l2.getD k ⟨0, 0, 0, 0, 0⟩)) →
    List.Forall₂ R l1 l2 := by
  intro l1
  induction l1 with
  | nil =>
    intro l2 h _
    cases l2 with
    | nil => exact List.Forall₂.nil
    | cons b t2 => simp at h
  | cons a t1 ih =>
    intro l2 h hk
    cases l2 with
    | nil => simp at h
    | cons b t2 =>
      refine List.Forall₂.cons (hk 0 (by simp)) ?_
      refine ih t2 (by simpa using h) (fun k hk' => ?_)
      have := hk (k + 1) (by simpa using Nat.succ_lt_succ hk')
      simpa using this

theorem forall₂_imp_mem (R S : View → View → Prop) :
    ∀ (l1 l2 : List View), List.Forall₂ R l1 l2 →
    (∀ a b, a ∈ l1 → b ∈ l2 → R a b → S a b) → List.Forall₂ S l1 l2 := by
  intro l1 l2 h
  induction h with
  | nil => intro _; exact List.Forall₂.nil
  | cons hr ht ih =>
    intro himp
    refine List.Forall₂.cons (himp _ _ (by simp) (by simp) hr) ?_
    exact ih (fun a b ha hb => himp a b (by simp [ha]) (by simp [hb]))

/-- The distinctness facts needed in the patch-loop induction, extracted
from the `Nodup` of the combined buffer-id list. -/
theorem nodup_cons_middle_facts (p1 p2 : View) (t1 t2 : List View)
    (h : (((p1 :: t1) ++ (p2 :: t2)).map View.buf).Nodup) :
    (∀ v ∈ t1, v.buf ≠ p1.buf) ∧ (∀ v ∈ t1, v.buf ≠ p2.buf) ∧
    (∀ v ∈ t2, v.buf ≠ p1.buf) ∧ (∀ v ∈ t2, v.buf ≠ p2.buf) ∧
    (((t1 ++ t2).map View.buf)).Nodup := by
  have hsh : (((p1 :: t1) ++ (p2 :: t2)).map View.buf) =
      p1.buf :: (t1.map View.buf ++ p2.buf :: t2.map View.buf) := by
    simp
  rw [hsh] at h
  obtain ⟨hhead, hrest⟩ := List.nodup_cons.mp h
  obtain ⟨hn1, hn2, hdisj⟩ := List.nodup_append.mp hrest
  obtain ⟨hp2, ht2⟩ := List.nodup_cons.mp hn2
  refine ⟨?_, ?_, ?_, ?_, ?_⟩
  · intro v hv heq
    exact hhead (by
      refine List.mem_append.mpr (Or.inl ?_)
      rw [← heq]
      exact List.mem_map_of_mem View.buf hv)
  · intro v hv heq
    exact hdisj (a := v.buf) (List.mem_map_of_mem View.buf hv) (by simp [heq])
  · intro v hv heq
    exact hhead (by
      refine List.mem_append.mpr (Or.inr ?_)
      rw [← heq]
      exact List.mem_cons.mpr (Or.inr (List.mem_map_of_mem View.buf hv)))
  · intro v hv heq
    exact hp2 (by
      rw [← heq]
      exact List.mem_map_of_mem View.buf hv)
  · have hsub : List.Sublist ((t1 ++ t2).map View.buf)
        (p1.buf :: (t1.map View.buf ++ p2.buf :: t2.map View.buf)) := by
      rw [List.map_append]
      exact List.Sublist.cons _
        (List.Sublist.append (List.Sublist.refl _) (List.sublist_cons_self _ _))
    exact List.Nodup.sublist hsub h

/-- Two runs of the patch loop over related patch views produce the same
list of correlation values. -/
theorem ccRun_det (sqrtf : ℚ → ℚ) :
    ∀ (ps1 ps1' ps2 ps2' : List View) (u u' : Store),
    List.Forall₂ (viewRel u u') ps1 ps1' →
    List.Forall₂ (viewRel u u') ps2 ps2' →
    List.Forall₂ (fun a b => a.rows = b.rows ∧ a.cols = b.cols ∧ a.buf ≠ b.buf)
      ps1 ps2 →
    List.Forall₂ (fun a b => a.buf ≠ b.buf) ps1' ps2' →
    ((ps1 ++ ps2).map View.buf).Nodup →
    ((ps1' ++ ps2').map View.buf).Nodup →
    ∀ w l, ccRun sqrtf u ps1 ps2 = .ok (w, l) →
    ∃ w', ccRun sqrtf u' ps1' ps2' = .ok (w', l) := by
  intro ps1
  induction ps1 with
  | nil =>
    intro ps1' ps2 ps2' u u' hA hB hP hP' _ _ w l h
    cases hA
    cases hP
    cases hB
    cases hP'
    rw [show ccRun sqrtf u ([] : List View) ([] : List View) = .ok (u, []) from rfl] at h
    simp only [Except.ok.injEq, Prod.mk.injEq] at h
    obtain ⟨rfl, rfl⟩ := h
    exact ⟨u', rfl⟩
  | cons p1 t1 ih =>
    intro ps1' ps2 ps2' u u' hA hB hP hP' hnd hnd' w l h
    cases hA with
    | cons hA1 hAt =>
      rename_i p1' t1'
      cases hP with
      | cons hP1 hPt =>
        rename_i p2 t2
        cases hB with
        | cons hB1 hBt =>
          rename_i p2' t2'
          cases hP' with
          | cons hP1' hPt' =>
            rw [show ccRun sqrtf u (p1 :: t1) (p2 :: t2) =
              (match ccRun sqrtf (get_CC sqrtf u p1 p2).1 t1 t2 with
                | .ok (s'', l') => .ok (s'', (get_CC sqrtf u p1 p2).2 :: l')
                | .error e => .error e) from rfl] at h
            cases hrec : ccRun sqrtf (get_CC sqrtf u p1 p2).1 t1 t2 with
            | error e => rw [hrec] at h; simp at h
            | ok pr =>
              obtain ⟨u2, l2⟩ := pr
              rw [hrec] at h
              simp only [Except.ok.injEq, Prod.mk.injEq] at h
              obtain ⟨rfl, rfl⟩ := h
              obtain ⟨ha1, ha2, hc1, hc2, hnde⟩ :=
                nodup_cons_middle_facts p1 p2 t1 t2 hnd
              obtain ⟨ha1', ha2', hc1', hc2', hnde'⟩ :=
                nodup_cons_middle_facts p1' p2' t1' t2' hnd'
              have hAt2 := forall₂_imp_mem _ _ t1 t1' hAt
                (fun v v' hv hv' hr => viewRel_transport u u' v v' p1 p2 p1' p2'
                  sqrtf hr (ha1 v hv) (ha2 v hv) (ha1' v' hv') (ha2' v' hv'))
              have hBt2 := forall₂_imp_mem _ _ t2 t2' hBt
                (fun v v' hv hv' hr => viewRel_transport u u' v v' p1 p2 p1' p2'
                  sqrtf hr (hc1 v hv) (hc2 v hv) (hc1' v' hv') (hc2' v' hv'))
              obtain ⟨w', hrec'⟩ := ih t1' t2 t2' _ _ hAt2 hBt2 hPt hPt'
                hnde hnde' u2 l2 hrec
              refine ⟨w', ?_⟩
              rw [show ccRun sqrtf u' (p1' :: t1') (p2' :: t2') =
                (match ccRun sqrtf (get_CC sqrtf u' p1' p2').1 t1' t2' with
                  | .ok (s'', l') => .ok (s'', (get_CC sqrtf u' p1' p2').2 :: l')
                  | .error e => .error e) from rfl, hrec']
              rw [get_CC_det sqrtf u u' p1 p2 p1' p2' hA1 hB1 hP1.1 hP1.2.1
                hP1.2.2 hP1']

theorem readV_whole (u : Store) (B R C i j : ℕ) :
    readV u ⟨B, 0, 0, R, C⟩ i j = ((bufAt u B).getD i []).getD j 0 := by
  show ((bufAt u B).getD (0 + i) []).getD (0 + j) 0 = _
  rw [Nat.zero_add, Nat.zero_add]

theorem sliceV_buf (v : View) (x y : ℤ) (w : ℕ) : (sliceV v x y w).buf = v.buf := rfl

theorem sliceV_dims_congr (a b : View) (x y : ℤ) (w : ℕ)
    (hr : a.rows = b.rows) (hc : a.cols = b.cols) :
    (sliceV a x y w).rows = (sliceV b x y w).rows ∧
    (sliceV a x y w).cols = (sliceV b x y w).cols := by
  unfold sliceV
  rw [hr, hc]
  exact ⟨rfl, rfl⟩

theorem store_app_map_length (s : Store) (l : List View) (f : View → Buf) :
    (s ++ l.map f).length = s.length + l.length := by
  rw [List.length_append, List.length_map]

theorem patchViews_map_buf (base : ℕ) (vs : List View) :
    (patchViews base vs).map View.buf =
      (List.range vs.length).map (fun k => base + k) := by
  unfold patchViews
  rw [List.map_map]
  rfl

theorem patchViews_nodup_append (base1 base2 : ℕ) (vs1 vs2 : List View)
    (h : base1 + vs1.length ≤ base2) :
    ((patchViews base1 vs1 ++ patchViews base2 vs2).map View.buf).Nodup := by
  rw [List.map_append, patchViews_map_buf, patchViews_map_buf]
  refine List.nodup_append.mpr ⟨?_, ?_, ?_⟩
  · exact List.Nodup.map (fun x y hxy => by omega) (List.nodup_range _)
  · exact List.Nodup.map (fun x y hxy => by omega) (List.nodup_range _)
  · intro x hx1 hx2
    obtain ⟨k1, hk1, rfl⟩ := List.mem_map.mp hx1
    obtain ⟨k2, hk2, he⟩ := List.mem_map.mp hx2
    rw [List.mem_range] at hk1 hk2
    omega

theorem except_bind_eq_match (x : Except NpErr (Store × List NpF))
    (f : Store × List NpF → Except NpErr (Store × NpF)) :
    (x >>= f) = (match x with | .ok pc => f pc | .error e => .error e) := by
  cases x <;> rfl

theorem stackPatches_fst (s : Store) (vs : List View) :
    (stackPatches s vs).1 = s ++ vs.map (matOf s) := rfl

theorem stackPatches_snd (s : Store) (vs : List View) :
    (stackPatches s vs).2 = patchViews s.length vs := rfl

/-- `get_patch_CC` written out: the two patch stacks are appended to the
store and `ccRun` is run on the patch views. -/
theorem get_patch_CC_unfold (sqrtf : ℚ → ℚ) (s : Store) (v1 v2 : View) :
    get_patch_CC sqrtf s v1 v2 =
      (ccRun sqrtf
          ((s ++ (gpSlices v1).map (matOf s)) ++
            (gpSlices v2).map (matOf (s ++ (gpSlices v1).map (matOf s))))
          (patchViews s.length (gpSlices v1))
          (patchViews (s ++ (gpSlices v1).map (matOf s)).length (gpSlices v2))
        >>= fun pc => pure (pc.1, npMean pc.2)) := by
  rw [show get_patch_CC sqrtf s v1 v2 =
      (get_patches s v1 >>= fun p1 =>
        get_patches p1.1 v2 >>= fun p2 =>
          ccRun sqrtf p2.1 p1.2 p2.2 >>= fun pc =>
            pure (pc.1, npMean pc.2)) from rfl]
  rw [get_patches_eq s v1, except_bind_ok, get_patches_eq _ v2, except_bind_ok]
  rfl

set_option maxHeartbeats 2000000 in
/-- Core of the determinacy argument, with the needed facts about the
slice lists abstracted out. -/
theorem get_patch_CC_det_core (sqrtf : ℚ → ℚ) (s s' : Store) (a b : View)
    (hb : b.buf < s.length) (hb' : b.buf < s'.length)
    (hbufA : bufAt s' a.buf = bufAt s a.buf)
    (hbufB : bufAt s' b.buf = bufAt s b.buf)
    (hglen : (gpSlices b).length = (gpSlices a).length)
    (hsa_buf : ∀ k, k < (gpSlices a).length →
      ((gpSlices a).getD k ⟨0, 0, 0, 0, 0⟩).buf = a.buf)
    (hsb_buf : ∀ k, k < (gpSlices b).length →
      ((gpSlices b).getD k ⟨0, 0, 0, 0, 0⟩).buf = b.buf)
    (hsdims : ∀ k, k < (gpSlices a).length →
      ((gpSlices a).getD k ⟨0, 0, 0, 0, 0⟩).rows =
        ((gpSlices b).getD k ⟨0, 0, 0, 0, 0⟩).rows ∧
      ((gpSlices a).getD k ⟨0, 0, 0, 0, 0⟩).cols =
        ((gpSlices b).getD k ⟨0, 0, 0, 0, 0⟩).cols) :
    ∀ w r, get_patch_CC sqrtf s a b = .ok (w, r) →
    ∃ w', get_patch_CC sqrtf s' a b = .ok (w', r) := by
  intro w r hok
  rw [get_patch_CC_unfold] at hok
  rw [get_patch_CC_unfold]
  have hS1len : (s ++ (gpSlices a).map (matOf s)).length =
      s.length + (gpSlices a).length := store_app_map_length s _ _
  have hS1len' : (s' ++ (gpSlices a).map (matOf s')).length =
      s'.length + (gpSlices a).length := store_app_map_length s' _ _
  -- the buffer sitting under patch view k of the first stack
  have hbufP1 : ∀ k, k < (gpSlices a).length →
      bufAt ((s ++ (gpSlices a).map (matOf s)) ++
          (gpSlices b).map (matOf (s ++ (gpSlices a).map (matOf s))))
        (s.length + k) = matOf s ((gpSlices a).getD k ⟨0, 0, 0, 0, 0⟩) := by
    intro k hk
    have hlt : s.length + k < (s ++ (gpSlices a).map (matOf s)).length := by omega
    rw [bufAt_append_left (s ++ (gpSlices a).map (matOf s))
      ((gpSlices b).map (matOf (s ++ (gpSlices a).map (matOf s))))
      (s.length + k) hlt, bufAt_append_right s _ k]
    exact getD_map_of_lt (matOf s) _ k ⟨0, 0, 0, 0, 0⟩ [] hk
  have hbufP1' : ∀ k, k < (gpSlices a).length →
      bufAt ((s' ++ (gpSlices a).map (matOf s')) ++
          (gpSlices b).map (matOf (s' ++ (gpSlices a).map (matOf s'))))
        (s'.length + k) = matOf s' ((gpSlices a).getD k ⟨0, 0, 0, 0, 0⟩) := by
    intro k hk
    have hlt : s'.length + k < (s' ++ (gpSlices a).map (matOf s')).length := by omega
    rw [bufAt_append_left (s' ++ (gpSlices a).map (matOf s'))
      ((gpSlices b).map (matOf (s' ++ (gpSlices a).map (matOf s'))))
      (s'.length + k) hlt, bufAt_append_right s' _ k]
    exact getD_map_of_lt (matOf s') _ k ⟨0, 0, 0, 0, 0⟩ [] hk
  have hbufP2 : ∀ k, k < (gpSlices b).length →
      bufAt ((s ++ (gpSlices a).map (matOf s)) ++
          (gpSlices b).map (matOf (s ++ (gpSlices a).map (matOf s))))
        ((s ++ (gpSlices a).map (matOf s)).length + k) =
        matOf (s ++ (gpSlices a).map (matOf s))
          ((gpSlices b).getD k ⟨0, 0, 0, 0, 0⟩) := by
    intro k hk
    rw [bufAt_append_right (s ++ (gpSlices a).map (matOf s))
      ((gpSlices b).map (matOf (s ++ (gpSlices a).map (matOf s)))) k]
    exact getD_map_of_lt (matOf (s ++ (gpSlices a).map (matOf s))) (gpSlices b)
      k ⟨0, 0, 0, 0, 0⟩ [] hk
  have hbufP2' : ∀ k, k < (gpSlices b).length →
      bufAt ((s' ++ (gpSlices a).map (matOf s')) ++
          (gpSlices b).map (matOf (s' ++ (gpSlices a).map (matOf s'))))
        ((s' ++ (gpSlices a).map (matOf s')).length + k) =
        matOf (s' ++ (gpSlices a).map (matOf s'))
          ((gpSlices b).getD k ⟨0, 0, 0, 0, 0⟩) := by
    intro k hk
    rw [bufAt_append_right (s' ++ (gpSlices a).map (matOf s'))
      ((gpSlices b).map (matOf (s' ++ (gpSlices a).map (matOf s')))) k]
    exact getD_map_of_lt (matOf (s' ++ (gpSlices a).map (matOf s'))) (gpSlices b)
      k ⟨0, 0, 0, 0, 0⟩ [] hk
  -- slices of `a` read the same data in both stores
  have hreadA : ∀ k, k < (gpSlices a).length → ∀ i j,
      readV s' ((gpSlices a).getD k ⟨0, 0, 0, 0, 0⟩) i j =
      readV s ((gpSlices a).getD k ⟨0, 0, 0, 0, 0⟩) i j := by
    intro k hk i j
    refine readV_congr_buf s s' _ ?_ i j
    rw [hsa_buf k hk, hbufA]
  -- slices of `b` read the same data in both first-stacked stores
  have hreadB : ∀ k, k < (gpSlices b).length → ∀ i j,
      readV (s' ++ (gpSlices a).map (matOf s'))
        ((gpSlices b).getD k ⟨0, 0, 0, 0, 0⟩) i j =
      readV (s ++ (gpSlices a).map (matOf s))
        ((gpSlices b).getD k ⟨0, 0, 0, 0, 0⟩) i j := by
    intro k hk i j
    refine readV_congr_buf _ _ _ ?_ i j
    rw [hsb_buf k hk]
    rw [bufAt_append_left s _ _ hb, bufAt_append_left s' _ _ hb', hbufB]
  -- F1 : the first patch-view lists are related
  have hF1 : List.Forall₂
      (viewRel
        ((s ++ (gpSlices a).map (matOf s)) ++
          (gpSlices b).map (matOf (s ++ (gpSlices a).map (matOf s))))
        ((s' ++ (gpSlices a).map (matOf s')) ++
          (gpSlices b).map (matOf (s' ++ (gpSlices a).map (matOf s')))))
      (patchViews s.length (gpSlices a))
      (patchViews s'.length (gpSlices a)) := by
    refine forall₂_of_getD _ _ _ (by rw [patchViews_length, patchViews_length]) ?_
    intro k hk
    rw [patchViews_length] at hk
    rw [getD_patchViews _ _ _ _ hk, getD_patchViews _ _ _ _ hk]
    refine ⟨rfl, rfl, rfl, rfl, rfl, rfl, ?_, ?_, ?_, ?_, ?_⟩
    · show (bufAt _ (s.length + k)).length = _
      rw [hbufP1 k hk, matOf_length]
    · show ∀ r' ∈ bufAt _ (s.length + k), r'.length =
        ((gpSlices a).getD k ⟨0, 0, 0, 0, 0⟩).cols
      rw [hbufP1 k hk]
      exact fun r' hr' =>
        matOf_row_length s ((gpSlices a).getD k ⟨0, 0, 0, 0, 0⟩) r' hr'
    · show (bufAt _ (s'.length + k)).length = _
      rw [hbufP1' k hk, matOf_length]
    · show ∀ r' ∈ bufAt _ (s'.length + k), r'.length =
        ((gpSlices a).getD k ⟨0, 0, 0, 0, 0⟩).cols
      rw [hbufP1' k hk]
      exact fun r' hr' =>
        matOf_row_length s' ((gpSlices a).getD k ⟨0, 0, 0, 0, 0⟩) r' hr'
    · intro i hi j hj
      rw [readV_whole, readV_whole, hbufP1 k hk, hbufP1' k hk,
        matOf_read s ((gpSlices a).getD k ⟨0, 0, 0, 0, 0⟩) i j hi hj,
        matOf_read s' ((gpSlices a).getD k ⟨0, 0, 0, 0, 0⟩) i j hi hj]
      exact hreadA k hk i j
  -- F2 : the second patch-view lists are related
  have hF2 : List.Forall₂
      (viewRel
        ((s ++ (gpSlices a).map (matOf s)) ++
          (gpSlices b).map (matOf (s ++ (gpSlices a).map (matOf s))))
        ((s' ++ (gpSlices a).map (matOf s')) ++
          (gpSlices b).map (matOf (s' ++ (gpSlices a).map (matOf s')))))
      (patchViews (s ++ (gpSlices a).map (matOf s)).length (gpSlices b))
      (patchViews (s' ++ (gpSlices a).map (matOf s')).length (gpSlices b)) := by
    refine forall₂_of_getD _ _ _ (by rw [patchViews_length, patchViews_length]) ?_
    intro k hk
    rw [patchViews_length] at hk
    rw [getD_patchViews _ _ _ _ hk, getD_patchViews _ _ _ _ hk]
    refine ⟨rfl, rfl, rfl, rfl, rfl, rfl, ?_, ?_, ?_, ?_, ?_⟩
    · show (bufAt _ ((s ++ (gpSlices a).map (matOf s)).length + k)).length = _
      rw [hbufP2 k hk, matOf_length]
    · show ∀ r' ∈ bufAt _ ((s ++ (gpSlices a).map (matOf s)).length + k),
        r'.length = ((gpSlices b).getD k ⟨0, 0, 0, 0, 0⟩).cols
      rw [hbufP2 k hk]
      exact fun r' hr' => matOf_row_length (s ++ (gpSlices a).map (matOf s))
        ((gpSlices b).getD k ⟨0, 0, 0, 0, 0⟩) r' hr'
    · show (bufAt _ ((s' ++ (gpSlices a).map (matOf s')).length + k)).length = _
      rw [hbufP2' k hk, matOf_length]
    · show ∀ r' ∈ bufAt _ ((s' ++ (gpSlices a).map (matOf s')).length + k),
        r'.length = ((gpSlices b).getD k ⟨0, 0, 0, 0, 0⟩).cols
      rw [hbufP2' k hk]
      exact fun r' hr' => matOf_row_length (s' ++ (gpSlices a).map (matOf s'))
        ((gpSlices b).getD k ⟨0, 0, 0, 0, 0⟩) r' hr'
    · intro i hi j hj
      rw [readV_whole, readV_whole, hbufP2 k hk, hbufP2' k hk,
        matOf_read (s ++ (gpSlices a).map (matOf s))
          ((gpSlices b).getD k ⟨0, 0, 0, 0, 0⟩) i j hi hj,
        matOf_read (s' ++ (gpSlices a).map (matOf s'))
          ((gpSlices b).getD k ⟨0, 0, 0, 0, 0⟩) i j hi hj]
      exact hreadB k hk i j
  -- F3 : dimensions agree pairwise and patch buffers are distinct
  have hF3 : List.Forall₂
      (fun v1 v2 => v1.rows = v2.rows ∧ v1.cols = v2.cols ∧ v1.buf ≠ v2.buf)
      (patchViews s.length (gpSlices a))
      (patchViews (s ++ (gpSlices a).map (matOf s)).length (gpSlices b)) := by
    refine forall₂_of_getD _ _ _
      (by rw [patchViews_length, patchViews_length, hglen]) ?_
    intro k hk
    rw [patchViews_length] at hk
    rw [getD_patchViews _ _ _ _ hk, getD_patchViews _ _ _ _ (by omega)]
    obtain ⟨hdr, hdc⟩ := hsdims k hk
    exact ⟨hdr, hdc, by show s.length + k ≠ _ + k; omega⟩
  have hF4 : List.Forall₂ (fun v1 v2 => v1.buf ≠ v2.buf)
      (patchViews s'.length (gpSlices a))
      (patchViews (s' ++ (gpSlices a).map (matOf s')).length (gpSlices b)) := by
    refine forall₂_of_getD _ _ _
      (by rw [patchViews_length, patchViews_length, hglen]) ?_
    intro k hk
    rw [patchViews_length] at hk
    rw [getD_patchViews _ _ _ _ hk, getD_patchViews _ _ _ _ (by omega)]
    show s'.length + k ≠ _ + k
    omega
  have hF5 := patchViews_nodup_append s.length
    (s ++ (gpSlices a).map (matOf s)).length (gpSlices a) (gpSlices b)
    (by omega)
  have hF6 := patchViews_nodup_append s'.length
    (s' ++ (gpSlices a).map (matOf s')).length (gpSlices a) (gpSlices b)
    (by omega)
  rw [except_bind_eq_match] at hok
  cases hrun : ccRun sqrtf
      ((s ++ (gpSlices a).map (matOf s)) ++
        (gpSlices b).map (matOf (s ++ (gpSlices a).map (matOf s))))
      (patchViews s.length (gpSlices a))
      (patchViews (s ++ (gpSlices a).map (matOf s)).length (gpSlices b)) with
  | error e => rw [hrun] at hok; simp at hok
  | ok pc =>
    obtain ⟨u0, l0⟩ := pc
    rw [hrun] at hok
    simp only [Except.ok.injEq, Prod.mk.injEq] at hok
    obtain ⟨rfl, rfl⟩ := hok
    obtain ⟨w', hrun'⟩ := ccRun_det sqrtf _ _ _ _ _ _ hF1 hF2 hF3 hF4 hF5 hF6
      w l0 hrun
    rw [hrun', except_bind_ok]
    exact ⟨w', rfl⟩

/-- The value returned by `get_patch_CC` is determined by the contents of
the two image buffers: any two stores agreeing on those buffers yield the
same correlation value (the stores themselves evolve differently, by
appending differently-indexed fresh patch buffers). -/
theorem get_patch_CC_det (sqrtf : ℚ → ℚ) (s s' : Store) (a b : View)
    (hb : b.buf < s.length) (hb' : b.buf < s'.length)
    (hr : a.rows = b.rows) (hc : a.cols = b.cols)
    (hbufA : bufAt s' a.buf = bufAt s a.buf)
    (hbufB : bufAt s' b.buf = bufAt s b.buf) :
    ∀ w r, get_patch_CC sqrtf s a b = .ok (w, r) →
    ∃ w', get_patch_CC sqrtf s' a b = .ok (w', r) := by
  intro w r hok
  have hcoords : pyProduct (arangeList ((b.rows : ℤ) - ((192 : ℕ) : ℤ)) 192)
      (arangeList ((b.cols : ℤ) - ((192 : ℕ) : ℤ)) 192) =
      pyProduct (arangeList ((a.rows : ℤ) - ((192 : ℕ) : ℤ)) 192)
      (arangeList ((a.cols : ℤ) - ((192 : ℕ) : ℤ)) 192) := by
    rw [hr, hc]
  have hglen : (gpSlices b).length = (gpSlices a).length :=
    gpSlices_length_eq b a hr.symm hc.symm
  -- the k-th slice of either image, and its basic properties
  have hslice_a : ∀ k, k < (gpSlices a).length →
      (gpSlices a).getD k ⟨0, 0, 0, 0, 0⟩ =
        sliceV a ((pyProduct (arangeList ((a.rows : ℤ) - ((192 : ℕ) : ℤ)) 192)
          (arangeList ((a.cols : ℤ) - ((192 : ℕ) : ℤ)) 192)).getD k (0, 0)).1
          ((pyProduct (arangeList ((a.rows : ℤ) - ((192 : ℕ) : ℤ)) 192)
          (arangeList ((a.cols : ℤ) - ((192 : ℕ) : ℤ)) 192)).getD k (0, 0)).2 192 := by
    intro k hk
    have hk' : k < (pyProduct (arangeList ((a.rows : ℤ) - ((192 : ℕ) : ℤ)) 192)
        (arangeList ((a.cols : ℤ) - ((192 : ℕ) : ℤ)) 192)).length := by
      unfold gpSlices at hk
      rwa [List.length_map] at hk
    unfold gpSlices
    exact getD_map_of_lt (fun c : ℤ × ℤ => sliceV a c.1 c.2 192) _ k (0, 0)
      ⟨0, 0, 0, 0, 0⟩ hk'
  have hslice_b : ∀ k, k < (gpSlices b).length →
      (gpSlices b).getD k ⟨0, 0, 0, 0, 0⟩ =
        sliceV b ((pyProduct (arangeList ((a.rows : ℤ) - ((192 : ℕ) : ℤ)) 192)
          (arangeList ((a.cols : ℤ) - ((192 : ℕ) : ℤ)) 192)).getD k (0, 0)).1
          ((pyProduct (arangeList ((a.rows : ℤ) - ((192 : ℕ) : ℤ)) 192)
          (arangeList ((a.cols : ℤ) - ((192 : ℕ) : ℤ)) 192)).getD k (0, 0)).2 192 := by
    intro k hk
    have hk' : k < (pyProduct (arangeList ((a.rows : ℤ) - ((192 : ℕ) : ℤ)) 192)
        (arangeList ((a.cols : ℤ) - ((192 : ℕ) : ℤ)) 192)).length := by
      unfold gpSlices at hk
      rw [hcoords] at hk
      rwa [List.length_map] at hk
    unfold gpSlices
    rw [hcoords]
    exact getD_map_of_lt (fun c : ℤ × ℤ => sliceV b c.1 c.2 192) _ k (0, 0)
      ⟨0, 0, 0, 0, 0⟩ hk'
  have hsa_buf : ∀ k, k < (gpSlices a).length →
      ((gpSlices a).getD k ⟨0, 0, 0, 0, 0⟩).buf = a.buf := by
    intro k hk
    rw [hslice_a k hk]
    rfl
  have hsb_buf : ∀ k, k < (gpSlices b).length →
      ((gpSlices b).getD k ⟨0, 0, 0, 0, 0⟩).buf = b.buf := by
    intro k hk
    rw [hslice_b k hk]
    rfl
  have hsdims : ∀ k, k < (gpSlices a).length →
      ((gpSlices a).getD k ⟨0, 0, 0, 0, 0⟩).rows =
        ((gpSlices b).getD k ⟨0, 0, 0, 0, 0⟩).rows ∧
      ((gpSlices a).getD k ⟨0, 0, 0, 0, 0⟩).cols =
        ((gpSlices b).getD k ⟨0, 0, 0, 0, 0⟩).cols := by
    intro k hk
    rw [hslice_a k hk, hslice_b k (by omega)]
    exact sliceV_dims_congr a b _ _ 192 hr hc
  exact get_patch_CC_det_core sqrtf s s' a b hb hb' hbufA hbufB hglen
    hsa_buf hsb_buf hsdims w r hok

/-! ## C5: the denoised-SNR combination formula -/

/-- The scalar `get_SNR` returns on a given store (its store effect
projected away); `nan` in the error case, which never occurs for
equal-shape images. -/
def snrValue (sqrtf : ℚ → ℚ) (s : Store) (v1 v2 : View) : NpF :=
  match get_SNR sqrtf s v1 v2 with
  | .ok p => p.2
  | .error _ => .nan

theorem get_SNR_of_pcc (sqrtf : ℚ → ℚ) (s : Store) (v1 v2 : View)
    (w : Store) (r : NpF) (h : get_patch_CC sqrtf s v1 v2 = .ok (w, r)) :
    get_SNR sqrtf s v1 v2 = .ok (w, nDiv r (nSub (.fin 1) r)) := by
  rw [show get_SNR sqrtf s v1 v2 =
    (get_patch_CC sqrtf s v1 v2 >>= fun p =>
      pure (p.1, nDiv p.2 (nSub (.fin 1) p.2))) from rfl, h, except_bind_ok]
  rfl

theorem snrValue_of_pcc (sqrtf : ℚ → ℚ) (s : Store) (v1 v2 : View)
    (w : Store) (r : NpF) (h : get_patch_CC sqrtf s v1 v2 = .ok (w, r)) :
    snrValue sqrtf s v1 v2 = nDiv r (nSub (.fin 1) r) := by
  unfold snrValue
  rw [get_SNR_of_pcc sqrtf s v1 v2 w r h]

/-- C5: `get_denoised_SNR` returns exactly the pair
`(mixed² / raw_snr, raw_snr)` where `raw_snr = snr(raw_even, raw_odd)`,
`mixed1 = snr(denoised_even, raw_odd)`, `mixed2 = snr(raw_even,
denoised_odd)` and `mixed = (mixed1 + mixed2)/2`, each `snr` being the
patch-correlation Frank & Al-Ali estimator evaluated on the original
input arrays (the store threading between the three `get_SNR` calls does
not disturb the values, because the patches are copies). -/
theorem get_denoised_SNR_formula (sqrtf : ℚ → ℚ) (s : Store)
    (re ro de dn : View)
    (h1 : re.buf < s.length) (h2 : ro.buf < s.length)
    (h3 : de.buf < s.length) (h4 : dn.buf < s.length)
    (hs1 : re.rows = ro.rows) (hs2 : re.cols = ro.cols)
    (hs3 : de.rows = re.rows) (hs4 : de.cols = re.cols)
    (hs5 : dn.rows = re.rows) (hs6 : dn.cols = re.cols)
    (hbig : 192 < re.rows ∧ 192 < re.cols) :
    ∃ s', get_denoised_SNR sqrtf s re ro de dn = .ok (s',
      (nDiv (nSq (nDiv (nAdd (snrValue sqrtf s de ro) (snrValue sqrtf s re dn))
        (.fin 2))) (snrValue sqrtf s re ro),
       snrValue sqrtf s re ro)) := by
  -- first call, on the original store
  obtain ⟨w1, r1, hok1⟩ := get_patch_CC_ok sqrtf s re ro hs1 hs2
  obtain ⟨hlen1, hframe1⟩ := get_patch_CC_frame sqrtf s re ro w1 r1 hok1
  -- second call: hypothetical run on `s`, transported to `w1`
  obtain ⟨w2s, r2, hok2s⟩ := get_patch_CC_ok sqrtf s de ro
    (by omega) (by rw [hs4, hs2])
  obtain ⟨w2, hok2⟩ := get_patch_CC_det sqrtf s w1 de ro h2 (by omega)
    (by omega) (by rw [hs4, hs2]) (hframe1 de.buf h3) (hframe1 ro.buf h2)
    w2s r2 hok2s
  obtain ⟨hlen2, hframe2⟩ := get_patch_CC_frame sqrtf w1 de ro w2 r2 hok2
  -- third call: hypothetical run on `s`, transported to `w2`
  obtain ⟨w3s, r3, hok3s⟩ := get_patch_CC_ok sqrtf s re dn
    (by omega) (by rw [hs6])
  have hframe12 : ∀ b, b < s.length → bufAt w2 b = bufAt s b := by
    intro b hbb
    rw [hframe2 b (by omega), hframe1 b hbb]
  obtain ⟨w3, hok3⟩ := get_patch_CC_det sqrtf s w2 re dn h4 (by omega)
    (by omega) (by rw [hs6]) (hframe12 re.buf h1) (hframe12 dn.buf h4)
    w3s r3 hok3s
  -- assemble the three `get_SNR` calls
  refine ⟨w3, ?_⟩
  rw [show get_denoised_SNR sqrtf s re ro de dn =
    (get_SNR sqrtf s re ro >>= fun p1 =>
      get_SNR sqrtf p1.1 de ro >>= fun p2 =>
        get_SNR sqrtf p2.1 re dn >>= fun p3 =>
          pure (p3.1,
            (nDiv (nSq (nDiv (nAdd p2.2 p3.2) (.fin 2))) p1.2, p1.2))) from rfl]
  rw [get_SNR_of_pcc sqrtf s re ro w1 r1 hok1, except_bind_ok]
  rw [get_SNR_of_pcc sqrtf w1 de ro w2 r2 hok2, except_bind_ok]
  rw [get_SNR_of_pcc sqrtf w2 re dn w3 r3 hok3, except_bind_ok]
  rw [snrValue_of_pcc sqrtf s re ro w1 r1 hok1,
    snrValue_of_pcc sqrtf s de ro w2s r2 hok2s,
    snrValue_of_pcc sqrtf s re dn w3s r3 hok3s]
  rfl

/-- Witness for C5: four 193×193 zero images in distinct buffers. -/
theorem get_denoised_SNR_formula_witness :
    ∃ s', get_denoised_SNR (fun q => q)
      [List.replicate 193 (List.replicate 193 (0 : ℚ)),
       List.replicate 193 (List.replicate 193 (0 : ℚ)),
       List.replicate 193 (List.replicate 193 (0 : ℚ)),
       List.replicate 193 (List.replicate 193 (0 : ℚ))]
      ⟨0, 0, 0, 193, 193⟩ ⟨1, 0, 0, 193, 193⟩ ⟨2, 0, 0, 193, 193⟩
      ⟨3, 0, 0, 193, 193⟩ = .ok (s',
      (nDiv (nSq (nDiv (nAdd
          (snrValue (fun q => q)
            [List.replicate 193 (List.replicate 193 (0 : ℚ)),
             List.replicate 193 (List.replicate 193 (0 : ℚ)),
             List.replicate 193 (List.replicate 193 (0 : ℚ)),
             List.replicate 193 (List.replicate 193 (0 : ℚ))]
            ⟨2, 0, 0, 193, 193⟩ ⟨1, 0, 0, 193, 193⟩)
          (snrValue (fun q => q)
            [List.replicate 193 (List.replicate 193 (0 : ℚ)),
             List.replicate 193 (List.replicate 193 (0 : ℚ)),
             List.replicate 193 (List.replicate 193 (0 : ℚ)),
             List.replicate 193 (List.replicate 193 (0 : ℚ))]
            ⟨0, 0, 0, 193, 193⟩ ⟨3, 0, 0, 193, 193⟩)) (.fin 2)))
        (snrValue (fun q => q)
          [List.replicate 193 (List.replicate 193 (0 : ℚ)),
           List.replicate 193 (List.replicate 193 (0 : ℚ)),
           List.replicate 193 (List.replicate 193 (0 : ℚ)),
           List.replicate 193 (List.replicate 193 (0 : ℚ))]
          ⟨0, 0, 0, 193, 193⟩ ⟨1, 0, 0, 193, 193⟩),
       snrValue (fun q => q)
        [List.replicate 193 (List.replicate 193 (0 : ℚ)),
         List.replicate 193 (List.replicate 193 (0 : ℚ)),
         List.replicate 193 (List.replicate 193 (0 : ℚ)),
         List.replicate 193 (List.replicate 193 (0 : ℚ))]
        ⟨0, 0, 0, 193, 193⟩ ⟨1, 0, 0, 193, 193⟩)) :=
  get_denoised_SNR_formula (fun q => q) _
    ⟨0, 0, 0, 193, 193⟩ ⟨1, 0, 0, 193, 193⟩ ⟨2, 0, 0, 193, 193⟩
    ⟨3, 0, 0, 193, 193⟩ (by simp) (by simp) (by simp) (by simp)
    rfl rfl rfl rfl rfl rfl (by norm_num)

end Restore
